import Mathlib

/-!
BodeDiagrammViewer: frequency response, margins and stability verdict.

A shallow embedding of `src/transferfunction.cpp` and of the range check and the
stability classification of `MainWindow::plotBode` (`src/mainwindow.cpp`).

Arithmetic on `double` is read as exact arithmetic.  The control flow (loops,
`break`, the unwrapping of the phase, the ordered rule list) is written over an
arbitrary linearly ordered field with a ceiling function, so that it can be
evaluated on rational inputs; the analytic part (`std::log10`, `std::pow`,
`std::abs`, `std::arg`) is instantiated over the real and complex numbers.
The two margin searches are also written on `double`s with infinities, NaN and
the sign of a zero imaginary part (namespace `Ieee`), for transfer functions
with a zero, a pole or a negative real value on the frequency grid.
-/

namespace BodeDiagrammViewer

/-! ## Values of type `double` -/

/-- A value of type `double`: a number, one of the two infinities, or a NaN. -/
inductive Dbl (α : Type) where
  | fin (x : α)
  | posInf
  | negInf
  | nan
  deriving DecidableEq, Repr

namespace Dbl

variable {α : Type} [LinearOrderedField α]

/-- The comparison `x > 0` on a `double`. -/
def gt0 : Dbl α → Bool
  | fin x => decide (x > 0)
  | posInf => true
  | negInf => false
  | nan => false

/-- The comparison `x < 0` on a `double`. -/
def lt0 : Dbl α → Bool
  | fin x => decide (x < 0)
  | posInf => false
  | negInf => true
  | nan => false

/-- The comparison `x == 0` on a `double`. -/
def eq0 : Dbl α → Bool
  | fin x => decide (x = 0)
  | _ => false

/-- Function `std::isinf`. -/
def isinf : Dbl α → Bool
  | posInf => true
  | negInf => true
  | _ => false

end Dbl

/-! ## The stability label of `MainWindow::plotBode` (lines 120-137) -/

/-- The four texts that `plotBode` writes into `ui->stabilityLabel`. -/
inductive Verdict where
  | stabil
  | moeglicherweiseInstabil
  | grenzstabil
  | instabil
  deriving DecidableEq, Repr

/-- The text of a verdict, as passed to `setText`. -/
def Verdict.text : Verdict → String
  | .stabil => "stabil"
  | .moeglicherweiseInstabil => "möglicherweise instabil"
  | .grenzstabil => "grenzstabil"
  | .instabil => "instabil"

section Classification

variable {α : Type} [LinearOrderedField α]

/-- The `if` / `else if` chain of `plotBode`, lines 121-137: the verdict that is written
into the stability label, or `none` when no branch calls `setText`.  `magnitude` is the
trace filled by `bodeData` for the plot. -/
def plotBodeVerdict (phaseMargin gainMargin : Dbl α) (magnitude : List (Dbl α)) :
    Option Verdict :=
  if phaseMargin.gt0 && gainMargin.gt0 then
    some Verdict.stabil
  else if phaseMargin.isinf && gainMargin.gt0 then
    if magnitude.all (fun mag => mag.lt0) then
      some Verdict.stabil
    else if magnitude.all (fun mag => mag.gt0) then
      some Verdict.moeglicherweiseInstabil
    else
      none
  else if gainMargin.isinf && phaseMargin.gt0 then
    some Verdict.stabil
  else if gainMargin.isinf && phaseMargin.isinf then
    some Verdict.stabil
  else if phaseMargin.eq0 || gainMargin.eq0 then
    some Verdict.grenzstabil
  else
    some Verdict.instabil

/-- The text of `ui->stabilityLabel` after lines 121-137, given its text before. -/
def plotBodeStabilityLabel (label : String) (phaseMargin gainMargin : Dbl α)
    (magnitude : List (Dbl α)) : String :=
  match plotBodeVerdict phaseMargin gainMargin magnitude with
  | some v => v.text
  | none => label

end Classification

/-! ## The range check of `MainWindow::plotBode` (lines 78-96) -/

/-- What `plotBode` does after reading the two frequency fields: it either shows the
warning and returns, or goes on to call `bodeData`, `calculatePhaseMargin` and
`calculateGainMargin`, the first with the given bounds. -/
inductive PlotAction (α : Type) where
  | warning
  | core (freqStart freqEnd : α)
  deriving DecidableEq, Repr

/-- Lines 79-96 of `plotBode`.  `okMin`, `okMax` and `xMin`, `xMax` are the results of
the two `toDouble(&ok)` calls: whether the text was a number, and its value. -/
def plotBodeRange {α : Type} [LinearOrderedField α] (okMin okMax : Bool) (xMin xMax : α) :
    PlotAction α :=
  let xMin := xMin / 10
  let xMax := xMax / 10
  if !(okMin && okMax && decide (xMin < xMax)) then
    PlotAction.warning
  else
    PlotAction.core xMin xMax

/-! ## Phase unwrapping and the three sweeps of `transferfunction.cpp` -/

section Sweeps

variable {α : Type} [LinearOrderedField α] [FloorRing α]

/-- The unwrapping of one sample (lines 55-62, 173-180 and 235-242): `i` is the loop
index, `unwrappedPhase` enters as `std::arg(H) * 180 / M_PI` and leaves unwrapped. -/
def unwrap (i : Nat) (lastUnwrappedPhase unwrappedPhase : α) : α :=
  if i > 0 then
    let phaseDifference := unwrappedPhase - lastUnwrappedPhase
    if phaseDifference > 180 then
      unwrappedPhase - 360 * (Int.ceil ((phaseDifference - 180) / 360) : α)
    else if phaseDifference < -180 then
      unwrappedPhase + 360 * (Int.ceil ((|phaseDifference| - 180) / 360) : α)
    else
      unwrappedPhase
  else
    unwrappedPhase

/-- What one pass of a sweep loop computes before the phase is unwrapped: the frequency
`w`, the magnitude `20 * std::log10(std::abs(H))` and the phase
`std::arg(H) * 180 / M_PI` of iteration `i`. -/
structure Samples (α : Type) where
  w : Nat → α
  magnitude : Nat → α
  rawPhase : Nat → α

/-- The three vectors filled by `bodeData`. -/
structure BodeArrays (α : Type) where
  frequencies : List α
  magnitude : List α
  phase : List α

/-- The `for` loop of `bodeData` (lines 40-66) from index `i` on, with `k` iterations left
and `lastUnwrappedPhase` as left by the iteration before; a row is the triple written
to `frequencies[i]`, `magnitude[i]` and `phase[i]`. -/
def bodeLoop (s : Samples α) : Nat → Nat → α → List (α × α × α)
  | 0, _, _ => []
  | k + 1, i, lastUnwrappedPhase =>
    let unwrappedPhase := unwrap i lastUnwrappedPhase (s.rawPhase i)
    (s.w i, s.magnitude i, unwrappedPhase) :: bodeLoop s k (i + 1) unwrappedPhase

/-- Function `bodeData` over given samples: the vectors have `numPoints` entries, written
in increasing order of the index, starting with `lastUnwrappedPhase = 0.0`. -/
def bodeDataOf (s : Samples α) (numPoints : Nat) : BodeArrays α :=
  let rows := bodeLoop s numPoints 0 0
  { frequencies := rows.map (fun r => r.1)
    magnitude := rows.map (fun r => r.2.1)
    phase := rows.map (fun r => r.2.2) }

/-- The local variables of `calculateGainMargin` that live across iterations. -/
structure GainState (α : Type) where
  phaseCrossoverFreq : α
  magnitudeAtPhaseCrossover : α
  lastUnwrappedPhase : α

/-- The `for` loop of `calculateGainMargin` (lines 163-192) from index `i` on, with `k`
iterations left. -/
def gainLoop (s : Samples α) (tolerance : α) : Nat → Nat → GainState α → GainState α
  | 0, _, st => st
  | k + 1, i, st =>
    let unwrappedPhase := unwrap i st.lastUnwrappedPhase (s.rawPhase i)
    let st := { st with lastUnwrappedPhase := unwrappedPhase }
    let st :=
      if st.phaseCrossoverFreq < 0 ∧ |unwrappedPhase + 180| < tolerance then
        { st with phaseCrossoverFreq := s.w i, magnitudeAtPhaseCrossover := s.magnitude i }
      else st
    if st.phaseCrossoverFreq > 0 then st else gainLoop s tolerance k (i + 1) st

/-- Function `calculateGainMargin` over given samples, number of points and tolerance. -/
def gainMarginOf (s : Samples α) (numPoints : Nat) (tolerance : α) : Dbl α :=
  let st := gainLoop s tolerance numPoints 0
    { phaseCrossoverFreq := -1, magnitudeAtPhaseCrossover := 0, lastUnwrappedPhase := 0 }
  if st.phaseCrossoverFreq > 0 then Dbl.fin (-st.magnitudeAtPhaseCrossover) else Dbl.posInf

/-- The local variables of `calculatePhaseMargin` that live across iterations. -/
structure PhaseState (α : Type) where
  gainCrossoverFreq : α
  phaseAtGainCrossover : α
  lastUnwrappedPhase : α

/-- The `for` loop of `calculatePhaseMargin` (lines 222-254) from index `i` on, with `k`
iterations left. -/
def phaseLoop (s : Samples α) (tolerance : α) : Nat → Nat → PhaseState α → PhaseState α
  | 0, _, st => st
  | k + 1, i, st =>
    let magnitude := s.magnitude i
    let unwrappedPhase := unwrap i st.lastUnwrappedPhase (s.rawPhase i)
    let st := { st with lastUnwrappedPhase := unwrappedPhase }
    let st :=
      if st.gainCrossoverFreq < 0 ∧ |magnitude| < tolerance then
        { st with gainCrossoverFreq := s.w i, phaseAtGainCrossover := unwrappedPhase }
      else st
    if st.gainCrossoverFreq > 0 then st else phaseLoop s tolerance k (i + 1) st

/-- Function `calculatePhaseMargin` over given samples, number of points and tolerance. -/
def phaseMarginOf (s : Samples α) (numPoints : Nat) (tolerance : α) : Dbl α :=
  let st := phaseLoop s tolerance numPoints 0
    { gainCrossoverFreq := -1, phaseAtGainCrossover := 0, lastUnwrappedPhase := 0 }
  if st.gainCrossoverFreq > 0 then Dbl.fin (180 + st.phaseAtGainCrossover) else Dbl.posInf

end Sweeps

/-! ## The phase unwrapper as the specification words it -/

section SpecUnwrap

variable {α : Type} [LinearOrderedField α] [FloorRing α]

/-- The unwrapped phase as section 4.3 of the specification words it, for the raw
(wrapped) phases `raw 0, raw 1, ...` and fresh state: the first sample is kept; for a
later sample `φ` and `Δ = φ - lastUnwrappedPhase`, the result is
`φ - 360 * ceil((Δ - 180) / 360)` if `Δ > 180`, `φ + 360 * ceil((|Δ| - 180) / 360)` if
`Δ < -180`, and `φ` otherwise. -/
def specUnwrapped (raw : Nat → α) : Nat → α
  | 0 => raw 0
  | i + 1 =>
    if raw (i + 1) - specUnwrapped raw i > 180 then
      raw (i + 1) - 360 * (Int.ceil ((raw (i + 1) - specUnwrapped raw i - 180) / 360) : α)
    else if raw (i + 1) - specUnwrapped raw i < -180 then
      raw (i + 1) + 360 * (Int.ceil ((|raw (i + 1) - specUnwrapped raw i| - 180) / 360) : α)
    else
      raw (i + 1)

end SpecUnwrap

/-- The state of a sweep loop on entry to iteration `i` agrees with the unwrapper of the
specification: from the second iteration on, `lastUnwrappedPhase` is the unwrapped phase
of the sample before. -/
def LastOk {α : Type} [LinearOrderedField α] [FloorRing α] (raw : Nat → α) (i : Nat)
    (last : α) : Prop :=
  ∀ j, i = j + 1 → last = specUnwrapped raw j

/-! ## The transfer function over the real numbers -/

/-- Class `TransferFunction`: the coefficients of the numerator and of the denominator,
highest degree first. -/
structure TransferFunction where
  numerator : List ℝ
  denominator : List ℝ

/-- One of the two loops of `evaluate` (lines 14-17 and 20-23): starting from `0.0`, adds
`coefficients[i] * std::pow(jw, coefficients.size() - i - 1)` for `i = 0, 1, ...`. -/
noncomputable def polynomialAt (coefficients : List ℝ) (jw : ℂ) : ℂ :=
  (List.range coefficients.length).foldl
    (fun acc i => acc + ((coefficients.getD i 0 : ℝ) : ℂ) * jw ^ (coefficients.length - i - 1)) 0

/-- Function `TransferFunction::evaluate` in exact arithmetic, meant for `D(jw) ≠ 0`.
Where the denominator is zero the source yields an IEEE infinity or NaN and the quotient
below is the `0` of Lean's division; the margin searches on `double`s (`Ieee.magnitudeDb`,
`Ieee.phaseDeg`) do not use the quotient there. -/
noncomputable def TransferFunction.evaluate (tf : TransferFunction) (w : ℝ) : ℂ :=
  let jw : ℂ := ⟨0, w⟩
  let num := polynomialAt tf.numerator jw
  let den := polynomialAt tf.denominator jw
  num / den

/-- The magnitude in dB, `20 * std::log10(std::abs(H))`, meant for `H ≠ 0`.  At `H = 0`
the source yields minus infinity and the logarithm below is the `0` of `Real.logb`;
`Ieee.magnitudeDb` returns minus infinity there. -/
noncomputable def magnitudeDb (H : ℂ) : ℝ :=
  20 * Real.logb 10 (Complex.abs H)

/-- The wrapped phase in degrees, `std::arg(H) * 180 / M_PI`, meant for `H` off the closed
negative real axis.  On the open negative real axis `std::arg` returns `pi` or `-pi`
according to the sign of the zero imaginary part, where `Complex.arg` is `pi`;
`Ieee.phaseDeg` takes that sign, and the phase at `H = 0`, from `Ieee.SpecialValues`. -/
noncomputable def phaseDeg (H : ℂ) : ℝ :=
  Complex.arg H * 180 / Real.pi

/-- The frequency of iteration `i` of a sweep (lines 36-37 and 43-44):
`std::pow(10, logStart + (logEnd - logStart) * i / (numPoints - 1))`. -/
noncomputable def sweepFrequency (freqStart freqEnd : ℝ) (numPoints i : Nat) : ℝ :=
  let logStart := Real.logb 10 freqStart
  let logEnd := Real.logb 10 freqEnd
  let logFreq := logStart + (logEnd - logStart) * (i : ℝ) / ((numPoints : ℝ) - 1)
  (10 : ℝ) ^ logFreq

/-- The samples of a sweep of `numPoints` points from `freqStart` to `freqEnd`. -/
noncomputable def TransferFunction.samples (tf : TransferFunction) (freqStart freqEnd : ℝ)
    (numPoints : Nat) : Samples ℝ where
  w := sweepFrequency freqStart freqEnd numPoints
  magnitude := fun i => magnitudeDb (tf.evaluate (sweepFrequency freqStart freqEnd numPoints i))
  rawPhase := fun i => phaseDeg (tf.evaluate (sweepFrequency freqStart freqEnd numPoints i))

/-- Function `TransferFunction::bodeData`. -/
noncomputable def TransferFunction.bodeData (tf : TransferFunction) (freqStart freqEnd : ℝ)
    (numPoints : Nat) : BodeArrays ℝ :=
  bodeDataOf (tf.samples freqStart freqEnd numPoints) numPoints

/-- Function `TransferFunction::calculateGainMargin` on real samples, with its constants
`freqStart = 10e-3`, `freqEnd = 10e6`, `numPoints = 1000000` and `tolerance = 1e-3`: the
reading for a transfer function without zeros, poles or negative real values on the grid
(`ieee_calculateGainMargin_of_regular`); `Ieee.calculateGainMargin` is the general one. -/
noncomputable def TransferFunction.calculateGainMargin (tf : TransferFunction) : Dbl ℝ :=
  gainMarginOf (tf.samples 10e-3 10e6 1000000) 1000000 1e-3

/-- Function `TransferFunction::calculatePhaseMargin` on real samples, with its constants
`freqStart = 10e-3`, `freqEnd = 10e6`, `numPoints = 1000000` and `tolerance = 1e-3`: the
reading for a transfer function without zeros, poles or negative real values on the grid
(`ieee_calculatePhaseMargin_of_regular`); `Ieee.calculatePhaseMargin` is the general
one. -/
noncomputable def TransferFunction.calculatePhaseMargin (tf : TransferFunction) : Dbl ℝ :=
  phaseMarginOf (tf.samples 10e-3 10e6 1000000) 1000000 1e-3

/-- The polynomial value as the specification words it: the sum of `c_i * s^(k - i)` over
the coefficient list `c_0 .. c_k` of degree `k` (length minus one). -/
noncomputable def specPolynomial (coefficients : List ℝ) (s : ℂ) : ℂ :=
  ∑ i in Finset.range coefficients.length,
    ((coefficients.getD i 0 : ℝ) : ℂ) * s ^ ((coefficients.length - 1) - i)

/-- The unwrapped phase of sample `i` of the margin sweep, as the specification words it:
the unwrapper of section 4.3 run from fresh state over the wrapped phases of the
1,000,000-point logarithmic sweep over `[0.01, 10^7]` rad/s. -/
noncomputable def TransferFunction.marginPhase (tf : TransferFunction) (i : Nat) : ℝ :=
  specUnwrapped (fun n => phaseDeg (tf.evaluate (sweepFrequency 0.01 (10 ^ 7) 1000000 n))) i

/-! ## The formatters `getFormattedNumerator` and `getFormattedDenominator` -/

section Formatting

variable {α : Type} [LinearOrderedField α]

/-- The `for` loop of `getFormattedNumerator` (lines 80-101) and of
`getFormattedDenominator` (lines 117-138) from index `i` on, with `k` iterations left.
The state is the coefficient vector of the object and the string built so far; `degree`
is `size() - 1` and `number` is `QString::number` on a `double`. -/
def formatLoop (number : α → String) (degree : Int) :
    Nat → Nat → List α → String → List α × String
  | 0, _, coefficients, eq => (coefficients, eq)
  | k + 1, i, coefficients, eq =>
    let eq :=
      if coefficients.getD i 0 = 1 ∧ degree - i > 0 then eq
      else if coefficients.getD i 0 = -1 ∧ degree - i > 0 then eq ++ "-"
      else eq ++ number (coefficients.getD i 0)
    let eq :=
      if degree - i > 0 then
        if degree - i > 1 then eq ++ "s" ++ ("<sup>" ++ toString (degree - i) ++ "</sup>")
        else eq ++ "s"
      else eq
    if (i : Int) < (coefficients.length : Int) - 1 then
      let eq := eq ++ (if coefficients.getD (i + 1) 0 ≥ 0 then " + " else " - ")
      let coefficients := coefficients.set (i + 1) |coefficients.getD (i + 1) 0|
      formatLoop number degree k (i + 1) coefficients eq
    else
      formatLoop number degree k (i + 1) coefficients eq

/-- The body shared by `getFormattedNumerator` and `getFormattedDenominator`: the
coefficient vector as the call leaves it, and the string returned; `invalid` is the text
returned for an empty vector. -/
def getFormatted (number : α → String) (invalid : String) (coefficients : List α) :
    List α × String :=
  if coefficients.isEmpty then (coefficients, invalid)
  else formatLoop number ((coefficients.length : Int) - 1) coefficients.length 0 coefficients ""

end Formatting

/-- Function `TransferFunction::getFormattedNumerator`: the object after the call and the
string returned. -/
noncomputable def TransferFunction.getFormattedNumerator (number : ℝ → String)
    (tf : TransferFunction) : TransferFunction × String :=
  let r := getFormatted number "Ungültiger Zähler" tf.numerator
  ({ tf with numerator := r.1 }, r.2)

/-- Function `TransferFunction::getFormattedDenominator`: the object after the call and
the string returned. -/
noncomputable def TransferFunction.getFormattedDenominator (number : ℝ → String)
    (tf : TransferFunction) : TransferFunction × String :=
  let r := getFormatted number "Ungültiger Nenner" tf.denominator
  ({ tf with denominator := r.1 }, r.2)

/-- A margin that is a real number or plus infinity. -/
def Dbl.isRealOrPosInf {α : Type} : Dbl α → Bool
  | Dbl.fin _ => true
  | Dbl.posInf => true
  | _ => false

/-! ## The margin searches with the special values of `double`

The sweeps above read every sample as a real number.  A sample of the margin searches can
also be an infinity or a NaN (a zero of the numerator or of the denominator on the grid),
and on the negative real axis the sign of the zero imaginary part decides between +180 and
-180 degrees.  The definitions of this part carry these values through the two searches;
rounding is still left out. -/

namespace Dbl

variable {α : Type} [LinearOrderedField α]

/-- Unary minus on a `double`. -/
def neg : Dbl α → Dbl α
  | fin x => fin (-x)
  | posInf => negInf
  | negInf => posInf
  | nan => nan

/-- Addition of two `double`s: a NaN operand and the sum of opposite infinities give NaN. -/
def add : Dbl α → Dbl α → Dbl α
  | fin x, fin y => fin (x + y)
  | fin _, posInf => posInf
  | fin _, negInf => negInf
  | posInf, fin _ => posInf
  | posInf, posInf => posInf
  | posInf, negInf => nan
  | negInf, fin _ => negInf
  | negInf, negInf => negInf
  | negInf, posInf => nan
  | nan, _ => nan
  | _, nan => nan

/-- Subtraction of two `double`s. -/
def sub (x y : Dbl α) : Dbl α :=
  add x (neg y)

/-- Function `std::abs` on a `double`. -/
def abs : Dbl α → Dbl α
  | fin x => fin |x|
  | posInf => posInf
  | negInf => posInf
  | nan => nan

/-- The comparison `x < y` of two `double`s; it is false when an operand is NaN. -/
def lt : Dbl α → Dbl α → Bool
  | fin x, fin y => decide (x < y)
  | fin _, posInf => true
  | negInf, fin _ => true
  | negInf, posInf => true
  | _, _ => false

/-- The product `c * x` of a `double` with a positive finite constant `c`. -/
def mulPos (c : α) (_ : 0 < c) : Dbl α → Dbl α
  | fin x => fin (c * x)
  | posInf => posInf
  | negInf => negInf
  | nan => nan

/-- The quotient `x / c` of a `double` by a positive finite constant `c`. -/
def divPos (c : α) (_ : 0 < c) : Dbl α → Dbl α
  | fin x => fin (x / c)
  | posInf => posInf
  | negInf => negInf
  | nan => nan

/-- Function `std::ceil` on a `double`. -/
def ceil [FloorRing α] : Dbl α → Dbl α
  | fin x => fin (Int.ceil x : α)
  | posInf => posInf
  | negInf => negInf
  | nan => nan

end Dbl

namespace Ieee

section Loops

variable {α : Type} [LinearOrderedField α] [FloorRing α]

/-- The unwrapping of one sample (lines 173-180 and 235-242) on `double`s. -/
def unwrap (i : Nat) (lastUnwrappedPhase unwrappedPhase : Dbl α) : Dbl α :=
  if i > 0 then
    let phaseDifference := Dbl.sub unwrappedPhase lastUnwrappedPhase
    if Dbl.lt (Dbl.fin 180) phaseDifference then
      Dbl.sub unwrappedPhase (Dbl.mulPos 360 (by norm_num)
        (Dbl.ceil (Dbl.divPos 360 (by norm_num) (Dbl.sub phaseDifference (Dbl.fin 180)))))
    else if Dbl.lt phaseDifference (Dbl.fin (-180)) then
      Dbl.add unwrappedPhase (Dbl.mulPos 360 (by norm_num)
        (Dbl.ceil (Dbl.divPos 360 (by norm_num)
          (Dbl.sub (Dbl.abs phaseDifference) (Dbl.fin 180)))))
    else
      unwrappedPhase
  else
    unwrappedPhase

/-- What one pass of a margin loop computes before the phase is unwrapped: the frequency
`w` (a power of 10, hence a number), the magnitude `20 * std::log10(std::abs(H))` and the
phase `std::arg(H) * 180 / M_PI` of iteration `i`, the last two as `double`s. -/
structure Samples (α : Type) where
  w : Nat → α
  magnitude : Nat → Dbl α
  rawPhase : Nat → Dbl α

/-- The local variables of `calculateGainMargin` that live across iterations. -/
structure GainState (α : Type) where
  phaseCrossoverFreq : α
  magnitudeAtPhaseCrossover : Dbl α
  lastUnwrappedPhase : Dbl α

/-- The `for` loop of `calculateGainMargin` (lines 163-192) from index `i` on, with `k`
iterations left. -/
def gainLoop (s : Samples α) (tolerance : α) : Nat → Nat → GainState α → GainState α
  | 0, _, st => st
  | k + 1, i, st =>
    let unwrappedPhase := unwrap i st.lastUnwrappedPhase (s.rawPhase i)
    let st := { st with lastUnwrappedPhase := unwrappedPhase }
    let st :=
      if st.phaseCrossoverFreq < 0 ∧
          Dbl.lt (Dbl.abs (Dbl.add unwrappedPhase (Dbl.fin 180))) (Dbl.fin tolerance) = true then
        { st with phaseCrossoverFreq := s.w i, magnitudeAtPhaseCrossover := s.magnitude i }
      else st
    if st.phaseCrossoverFreq > 0 then st else gainLoop s tolerance k (i + 1) st

/-- Function `calculateGainMargin` over given samples, number of points and tolerance. -/
def gainMarginOf (s : Samples α) (numPoints : Nat) (tolerance : α) : Dbl α :=
  let st := gainLoop s tolerance numPoints 0
    { phaseCrossoverFreq := -1, magnitudeAtPhaseCrossover := Dbl.fin 0,
      lastUnwrappedPhase := Dbl.fin 0 }
  if st.phaseCrossoverFreq > 0 then Dbl.neg st.magnitudeAtPhaseCrossover else Dbl.posInf

/-- The local variables of `calculatePhaseMargin` that live across iterations. -/
structure PhaseState (α : Type) where
  gainCrossoverFreq : α
  phaseAtGainCrossover : Dbl α
  lastUnwrappedPhase : Dbl α

/-- The `for` loop of `calculatePhaseMargin` (lines 222-254) from index `i` on, with `k`
iterations left. -/
def phaseLoop (s : Samples α) (tolerance : α) : Nat → Nat → PhaseState α → PhaseState α
  | 0, _, st => st
  | k + 1, i, st =>
    let magnitude := s.magnitude i
    let unwrappedPhase := unwrap i st.lastUnwrappedPhase (s.rawPhase i)
    let st := { st with lastUnwrappedPhase := unwrappedPhase }
    let st :=
      if st.gainCrossoverFreq < 0 ∧
          Dbl.lt (Dbl.abs magnitude) (Dbl.fin tolerance) = true then
        { st with gainCrossoverFreq := s.w i, phaseAtGainCrossover := unwrappedPhase }
      else st
    if st.gainCrossoverFreq > 0 then st else phaseLoop s tolerance k (i + 1) st

/-- Function `calculatePhaseMargin` over given samples, number of points and tolerance. -/
def phaseMarginOf (s : Samples α) (numPoints : Nat) (tolerance : α) : Dbl α :=
  let st := phaseLoop s tolerance numPoints 0
    { gainCrossoverFreq := -1, phaseAtGainCrossover := Dbl.fin 0,
      lastUnwrappedPhase := Dbl.fin 0 }
  if st.gainCrossoverFreq > 0 then Dbl.add (Dbl.fin 180) st.phaseAtGainCrossover
  else Dbl.posInf

/-- The unwrapped phase as section 4.3 of the specification words it, on `double`s: the
first sample is kept; for a later sample `φ` and `Δ = φ - lastUnwrappedPhase`, the result
is `φ - 360 * ceil((Δ - 180) / 360)` if `Δ > 180`, `φ + 360 * ceil((|Δ| - 180) / 360)` if
`Δ < -180`, and `φ` otherwise. -/
def specUnwrapped (raw : Nat → Dbl α) : Nat → Dbl α
  | 0 => raw 0
  | i + 1 =>
    if Dbl.lt (Dbl.fin 180) (Dbl.sub (raw (i + 1)) (specUnwrapped raw i)) = true then
      Dbl.sub (raw (i + 1)) (Dbl.mulPos 360 (by norm_num) (Dbl.ceil (Dbl.divPos 360 (by norm_num)
        (Dbl.sub (Dbl.sub (raw (i + 1)) (specUnwrapped raw i)) (Dbl.fin 180)))))
    else if Dbl.lt (Dbl.sub (raw (i + 1)) (specUnwrapped raw i)) (Dbl.fin (-180)) = true then
      Dbl.add (raw (i + 1)) (Dbl.mulPos 360 (by norm_num) (Dbl.ceil (Dbl.divPos 360 (by norm_num)
        (Dbl.sub (Dbl.abs (Dbl.sub (raw (i + 1)) (specUnwrapped raw i))) (Dbl.fin 180)))))
    else
      raw (i + 1)

/-- The state of a margin loop on entry to iteration `i` agrees with the unwrapper of the
specification. -/
def LastOk (raw : Nat → Dbl α) (i : Nat) (last : Dbl α) : Prop :=
  ∀ j, i = j + 1 → last = specUnwrapped raw j

/-- The test `std::abs(x + 180) < tolerance` of the phase-crossover search. -/
def nearMinus180 (x : Dbl α) (tolerance : α) : Prop :=
  Dbl.lt (Dbl.abs (Dbl.add x (Dbl.fin 180))) (Dbl.fin tolerance) = true

/-- The test `std::abs(magnitude) < tolerance` of the gain-crossover search. -/
def nearZeroDb (magnitude : Dbl α) (tolerance : α) : Prop :=
  Dbl.lt (Dbl.abs magnitude) (Dbl.fin tolerance) = true

end Loops

/-- What the arithmetic of `double` delivers at the samples where exact real arithmetic
does not fix it.  The fields are functions of the frequency `w` of the sample:
`magnitudeAtPole` and `phaseAtPole` are `20 * std::log10(std::abs(H))` and
`std::arg(H) * 180 / M_PI` where the denominator is zero (`H` is an infinity or a NaN);
`phaseAtZero` is the phase where `H` is zero (`atan2` of two signed zeros);
`negativeZero` tells whether the zero imaginary part of a negative real `H` is `-0`, in
which case `std::arg` returns `-pi` and not `pi`. -/
structure SpecialValues where
  magnitudeAtPole : ℝ → Dbl ℝ
  phaseAtPole : ℝ → Dbl ℝ
  phaseAtZero : ℝ → Dbl ℝ
  negativeZero : ℝ → Bool

/-- The magnitude `20 * std::log10(std::abs(evaluate(w)))` as a `double`: the real value
where numerator and denominator are not zero, minus infinity where only the numerator is
zero (`std::log10(0)`), and the special value where the denominator is zero. -/
noncomputable def magnitudeDb (sv : SpecialValues) (tf : TransferFunction) (w : ℝ) : Dbl ℝ :=
  if polynomialAt tf.denominator (⟨0, w⟩ : ℂ) = 0 then sv.magnitudeAtPole w
  else if polynomialAt tf.numerator (⟨0, w⟩ : ℂ) = 0 then Dbl.negInf
  else Dbl.fin (BodeDiagrammViewer.magnitudeDb (tf.evaluate w))

/-- The phase `std::arg(evaluate(w)) * 180 / M_PI` as a `double`: the real value where `H`
is a complex number off the closed negative real axis, +180 or -180 on the open negative
real axis according to the sign of the zero imaginary part, and the special values where
the numerator or the denominator is zero. -/
noncomputable def phaseDeg (sv : SpecialValues) (tf : TransferFunction) (w : ℝ) : Dbl ℝ :=
  if polynomialAt tf.denominator (⟨0, w⟩ : ℂ) = 0 then sv.phaseAtPole w
  else if polynomialAt tf.numerator (⟨0, w⟩ : ℂ) = 0 then sv.phaseAtZero w
  else if (tf.evaluate w).im = 0 ∧ (tf.evaluate w).re < 0 then
    if sv.negativeZero w then Dbl.fin (-180) else Dbl.fin 180
  else Dbl.fin (BodeDiagrammViewer.phaseDeg (tf.evaluate w))

/-- The samples of a sweep of `numPoints` points from `freqStart` to `freqEnd`, as
`double`s. -/
noncomputable def samples (sv : SpecialValues) (tf : TransferFunction)
    (freqStart freqEnd : ℝ) (numPoints : Nat) : Samples ℝ where
  w := sweepFrequency freqStart freqEnd numPoints
  magnitude := fun i => magnitudeDb sv tf (sweepFrequency freqStart freqEnd numPoints i)
  rawPhase := fun i => phaseDeg sv tf (sweepFrequency freqStart freqEnd numPoints i)

/-- Function `TransferFunction::calculateGainMargin` on `double`s, with its constants
`freqStart = 10e-3`, `freqEnd = 10e6`, `numPoints = 1000000` and `tolerance = 1e-3`. -/
noncomputable def calculateGainMargin (sv : SpecialValues) (tf : TransferFunction) : Dbl ℝ :=
  gainMarginOf (samples sv tf 10e-3 10e6 1000000) 1000000 1e-3

/-- Function `TransferFunction::calculatePhaseMargin` on `double`s, with its constants
`freqStart = 10e-3`, `freqEnd = 10e6`, `numPoints = 1000000` and `tolerance = 1e-3`. -/
noncomputable def calculatePhaseMargin (sv : SpecialValues) (tf : TransferFunction) : Dbl ℝ :=
  phaseMarginOf (samples sv tf 10e-3 10e6 1000000) 1000000 1e-3

/-- The frequency `w_i` of the margin sweep as the specification words it: sample `i` of
the 1,000,000-point logarithmic sweep over `[0.01, 10^7]` rad/s. -/
noncomputable def marginFrequency (i : Nat) : ℝ :=
  sweepFrequency 0.01 (10 ^ 7) 1000000 i

/-- The unwrapped phase of sample `i` of the margin sweep, as the specification words it:
the unwrapper of section 4.3 run from fresh state over the wrapped phases of the sweep. -/
noncomputable def marginPhase (sv : SpecialValues) (tf : TransferFunction) (i : Nat) : Dbl ℝ :=
  specUnwrapped (fun n => phaseDeg sv tf (marginFrequency n)) i

/-- The magnitude of sample `i` of the margin sweep. -/
noncomputable def marginMagnitude (sv : SpecialValues) (tf : TransferFunction) (i : Nat) :
    Dbl ℝ :=
  magnitudeDb sv tf (marginFrequency i)

end Ieee

/-- The range check of `plotBode` warns exactly when a field did not parse or the bounds
are not in increasing order; the sign of the bounds is not looked at. -/
theorem plotBodeRange_warning_iff {α : Type} [LinearOrderedField α] (okMin okMax : Bool)
    (xMin xMax : α) :
    plotBodeRange okMin okMax xMin xMax = PlotAction.warning ↔
      ¬ (okMin = true ∧ okMax = true ∧ xMin / 10 < xMax / 10) := by
  unfold plotBodeRange
  by_cases h : okMin = true ∧ okMax = true ∧ xMin / 10 < xMax / 10
  · simp [h]
  · simp only [h, not_false_eq_true, iff_true]
    have : (okMin && okMax && decide (xMin / 10 < xMax / 10)) = false := by
      simpa [and_assoc] using h
    simp [this]

/-! ## Phase unwrapping: the step stays within half a turn -/

section UnwrapLemmas

variable {α : Type} [LinearOrderedField α] [FloorRing α]

/-- From the second iteration on, the unwrapped sample is at most 180 away from
`lastUnwrappedPhase`. -/
theorem unwrap_sub_last (i : Nat) (hi : 0 < i) (last raw : α) :
    |unwrap i last raw - last| ≤ 180 := by
  unfold unwrap
  simp only [gt_iff_lt, hi, if_true]
  split_ifs with h1 h2
  · have hle := Int.le_ceil ((raw - last - 180) / 360)
    have hlt := Int.ceil_lt_add_one ((raw - last - 180) / 360)
    have hd : raw - last = 360 * ((raw - last - 180) / 360) + 180 := by ring
    rw [abs_le]
    constructor <;> linarith
  · have hneg : |raw - last| = -(raw - last) := abs_of_neg (by linarith)
    rw [hneg]
    have hle := Int.le_ceil ((-(raw - last) - 180) / 360)
    have hlt := Int.ceil_lt_add_one ((-(raw - last) - 180) / 360)
    have hd : -(raw - last) = 360 * ((-(raw - last) - 180) / 360) + 180 := by ring
    rw [abs_le]
    constructor <;> linarith
  · rw [abs_le]
    constructor <;> linarith

/-- Two neighbouring entries of the phase column of `bodeLoop` differ by at most 180. -/
theorem bodeLoop_phase_step (s : Samples α) :
    ∀ (k i : Nat) (last : α) (j : Nat) (p q : α),
      ((bodeLoop s k i last).map (fun r => r.2.2))[j]? = some p →
      ((bodeLoop s k i last).map (fun r => r.2.2))[j + 1]? = some q →
      |q - p| ≤ 180 := by
  intro k
  induction k with
  | zero => intro i last j p q hp; simp [bodeLoop] at hp
  | succ k ih =>
    intro i last j p q hp hq
    cases j with
    | zero =>
      cases k with
      | zero => simp [bodeLoop] at hq
      | succ k =>
        simp only [bodeLoop, List.map_cons, List.getElem?_cons_zero, List.getElem?_cons_succ,
          Option.some.injEq, zero_add] at hp hq
        rw [← hp, ← hq]
        exact unwrap_sub_last (i + 1) (Nat.succ_pos i) _ _
    | succ j =>
      simp only [bodeLoop, List.map_cons, List.getElem?_cons_succ] at hp hq
      exact ih (i + 1) _ j p q hp hq

/-- In a loop whose state agrees with the specified unwrapper, the code unwraps sample `i`
to the specified value. -/
theorem unwrap_of_lastOk (raw : Nat → α) (i : Nat) (last : α) (h : LastOk raw i last) :
    unwrap i last (raw i) = specUnwrapped raw i := by
  cases i with
  | zero => simp [unwrap, specUnwrapped]
  | succ i =>
    have hl : last = specUnwrapped raw i := h i rfl
    subst hl
    simp [unwrap, specUnwrapped]

theorem lastOk_succ (raw : Nat → α) (i : Nat) : LastOk raw (i + 1) (specUnwrapped raw i) := by
  intro j hj
  have : i = j := by omega
  subst this; rfl

theorem lastOk_zero (raw : Nat → α) (last : α) : LastOk raw 0 last := by
  intro j hj
  omega

/-- A constant raw phase is left as it is by the specified unwrapper. -/
theorem specUnwrapped_const (raw : Nat → α) (c : α) (h : ∀ n, raw n = c) :
    ∀ i, specUnwrapped raw i = c := by
  intro i
  have h180 : ¬ (180 : α) < 0 := by norm_num
  induction i with
  | zero => simp [specUnwrapped, h]
  | succ i ih => simp [specUnwrapped, h, ih, h180]

/-- Row `j` of `bodeLoop`: the samples of index `i + j` with the specified unwrapped phase. -/
theorem bodeLoop_getElem (s : Samples α) :
    ∀ (k i : Nat) (last : α) (j : Nat), LastOk s.rawPhase i last →
      (bodeLoop s k i last)[j]? =
        if j < k then some (s.w (i + j), s.magnitude (i + j), specUnwrapped s.rawPhase (i + j))
        else none := by
  intro k
  induction k with
  | zero => intro i last j _; simp [bodeLoop]
  | succ k ih =>
    intro i last j hl
    have hu := unwrap_of_lastOk s.rawPhase i last hl
    cases j with
    | zero => simp [bodeLoop, hu]
    | succ j =>
      simp only [bodeLoop, hu, List.getElem?_cons_succ]
      rw [ih (i + 1) _ j (lastOk_succ s.rawPhase i)]
      have e : i + 1 + j = i + (j + 1) := by omega
      simp [e]

theorem bodeLoop_length (s : Samples α) :
    ∀ (k i : Nat) (last : α), (bodeLoop s k i last).length = k := by
  intro k
  induction k with
  | zero => intro i last; simp [bodeLoop]
  | succ k ih => intro i last; simp [bodeLoop, ih]

end UnwrapLemmas

/-! ## The margin searches stop at the first crossover -/

section MarginLemmas

variable {α : Type} [LinearOrderedField α] [FloorRing α]

theorem gainLoop_found (s : Samples α) (tol : α) (hw : ∀ n, 0 < s.w n) (j : Nat)
    (hj : |specUnwrapped s.rawPhase j + 180| < tol) :
    ∀ (k i : Nat) (st : GainState α), st.phaseCrossoverFreq < 0 →
      LastOk s.rawPhase i st.lastUnwrappedPhase → i ≤ j → j < i + k →
      (∀ m, i ≤ m → m < j → ¬ |specUnwrapped s.rawPhase m + 180| < tol) →
      (gainLoop s tol k i st).phaseCrossoverFreq = s.w j ∧
      (gainLoop s tol k i st).magnitudeAtPhaseCrossover = s.magnitude j := by
  intro k
  induction k with
  | zero => intro i st _ _ h1 h2; omega
  | succ k ih =>
    intro i st hst hl h1 h2 hmin
    have hu := unwrap_of_lastOk s.rawPhase i st.lastUnwrappedPhase hl
    rcases Nat.eq_or_lt_of_le h1 with heq | hlt
    · subst heq
      simp [gainLoop, hu, hst, hj, hw]
    · have hn := hmin i le_rfl hlt
      have hst2 : ¬ 0 < st.phaseCrossoverFreq := not_lt.mpr hst.le
      simp only [gainLoop, hu, hn, and_false, if_false, gt_iff_lt, hst2]
      exact ih (i + 1) _ hst (lastOk_succ s.rawPhase i) hlt (by omega)
        (fun m hm1 hm2 => hmin m (by omega) hm2)

theorem gainLoop_none (s : Samples α) (tol : α) :
    ∀ (k i : Nat) (st : GainState α), st.phaseCrossoverFreq < 0 →
      LastOk s.rawPhase i st.lastUnwrappedPhase →
      (∀ m, i ≤ m → m < i + k → ¬ |specUnwrapped s.rawPhase m + 180| < tol) →
      (gainLoop s tol k i st).phaseCrossoverFreq < 0 := by
  intro k
  induction k with
  | zero => intro i st hst _ _; simpa [gainLoop] using hst
  | succ k ih =>
    intro i st hst hl hmin
    have hu := unwrap_of_lastOk s.rawPhase i st.lastUnwrappedPhase hl
    have hn := hmin i le_rfl (by omega)
    have hst2 : ¬ 0 < st.phaseCrossoverFreq := not_lt.mpr hst.le
    simp only [gainLoop, hu, hn, and_false, if_false, gt_iff_lt, hst2]
    exact ih (i + 1) _ hst (lastOk_succ s.rawPhase i)
      (fun m hm1 hm2 => hmin m (by omega) (by omega))

/-- With positive frequencies, `calculateGainMargin` returns minus the magnitude of the
first sample whose specified unwrapped phase is within the tolerance of -180. -/
theorem gainMarginOf_found (s : Samples α) (tol : α) (hw : ∀ n, 0 < s.w n) (n j : Nat)
    (hjn : j < n) (hj : |specUnwrapped s.rawPhase j + 180| < tol)
    (hmin : ∀ m, m < j → ¬ |specUnwrapped s.rawPhase m + 180| < tol) :
    gainMarginOf s n tol = Dbl.fin (-(s.magnitude j)) := by
  have h := gainLoop_found s tol hw j hj n 0
    { phaseCrossoverFreq := -1, magnitudeAtPhaseCrossover := 0, lastUnwrappedPhase := 0 }
    (by simp) (lastOk_zero _ _) (Nat.zero_le j) (by omega) (fun m _ hm => hmin m hm)
  simp only [gainMarginOf, h.1, h.2, gt_iff_lt, hw j, if_true]

theorem gainMarginOf_none (s : Samples α) (tol : α) (n : Nat)
    (hno : ∀ m, m < n → ¬ |specUnwrapped s.rawPhase m + 180| < tol) :
    gainMarginOf s n tol = Dbl.posInf := by
  have h := gainLoop_none s tol n 0
    { phaseCrossoverFreq := -1, magnitudeAtPhaseCrossover := 0, lastUnwrappedPhase := 0 }
    (by simp) (lastOk_zero _ _) (fun m _ hm => hno m (by omega))
  simp only [gainMarginOf, gt_iff_lt, not_lt.mpr h.le, if_false]

theorem phaseLoop_found (s : Samples α) (tol : α) (hw : ∀ n, 0 < s.w n) (j : Nat)
    (hj : |s.magnitude j| < tol) :
    ∀ (k i : Nat) (st : PhaseState α), st.gainCrossoverFreq < 0 →
      LastOk s.rawPhase i st.lastUnwrappedPhase → i ≤ j → j < i + k →
      (∀ m, i ≤ m → m < j → ¬ |s.magnitude m| < tol) →
      (phaseLoop s tol k i st).gainCrossoverFreq = s.w j ∧
      (phaseLoop s tol k i st).phaseAtGainCrossover = specUnwrapped s.rawPhase j := by
  intro k
  induction k with
  | zero => intro i st _ _ h1 h2; omega
  | succ k ih =>
    intro i st hst hl h1 h2 hmin
    have hu := unwrap_of_lastOk s.rawPhase i st.lastUnwrappedPhase hl
    rcases Nat.eq_or_lt_of_le h1 with heq | hlt
    · subst heq
      simp [phaseLoop, hu, hst, hj, hw]
    · have hn := hmin i le_rfl hlt
      have hst2 : ¬ 0 < st.gainCrossoverFreq := not_lt.mpr hst.le
      simp only [phaseLoop, hu, hn, and_false, if_false, gt_iff_lt, hst2]
      exact ih (i + 1) _ hst (lastOk_succ s.rawPhase i) hlt (by omega)
        (fun m hm1 hm2 => hmin m (by omega) hm2)

theorem phaseLoop_none (s : Samples α) (tol : α) :
    ∀ (k i : Nat) (st : PhaseState α), st.gainCrossoverFreq < 0 →
      (∀ m, i ≤ m → m < i + k → ¬ |s.magnitude m| < tol) →
      (phaseLoop s tol k i st).gainCrossoverFreq < 0 := by
  intro k
  induction k with
  | zero => intro i st hst _; simpa [phaseLoop] using hst
  | succ k ih =>
    intro i st hst hmin
    have hn := hmin i le_rfl (by omega)
    have hst2 : ¬ 0 < st.gainCrossoverFreq := not_lt.mpr hst.le
    simp only [phaseLoop, hn, and_false, if_false, gt_iff_lt, hst2]
    exact ih (i + 1) _ hst (fun m hm1 hm2 => hmin m (by omega) (by omega))

/-- With positive frequencies, `calculatePhaseMargin` returns 180 plus the specified
unwrapped phase of the first sample whose magnitude is within the tolerance of 0 dB. -/
theorem phaseMarginOf_found (s : Samples α) (tol : α) (hw : ∀ n, 0 < s.w n) (n j : Nat)
    (hjn : j < n) (hj : |s.magnitude j| < tol)
    (hmin : ∀ m, m < j → ¬ |s.magnitude m| < tol) :
    phaseMarginOf s n tol = Dbl.fin (180 + specUnwrapped s.rawPhase j) := by
  have h := phaseLoop_found s tol hw j hj n 0
    { gainCrossoverFreq := -1, phaseAtGainCrossover := 0, lastUnwrappedPhase := 0 }
    (by simp) (lastOk_zero _ _) (Nat.zero_le j) (by omega) (fun m _ hm => hmin m hm)
  simp only [phaseMarginOf, h.1, h.2, gt_iff_lt, hw j, if_true]

theorem phaseMarginOf_none (s : Samples α) (tol : α) (n : Nat)
    (hno : ∀ m, m < n → ¬ |s.magnitude m| < tol) :
    phaseMarginOf s n tol = Dbl.posInf := by
  have h := phaseLoop_none s tol n 0
    { gainCrossoverFreq := -1, phaseAtGainCrossover := 0, lastUnwrappedPhase := 0 }
    (by simp) (fun m _ hm => hno m (by omega))
  simp only [phaseMarginOf, gt_iff_lt, not_lt.mpr h.le, if_false]

end MarginLemmas

/-! ## The logarithmic sweep and the evaluation over the real numbers -/

section RealLemmas

theorem sweepFrequency_pos (a b : ℝ) (n i : Nat) : 0 < sweepFrequency a b n i := by
  unfold sweepFrequency
  exact Real.rpow_pos_of_pos (by norm_num) _

theorem sweepFrequency_zero (a b : ℝ) (n : Nat) (ha : 0 < a) : sweepFrequency a b n 0 = a := by
  unfold sweepFrequency
  simp only [Nat.cast_zero, mul_zero, zero_div, add_zero]
  exact Real.rpow_logb (by norm_num) (by norm_num) ha

theorem sweepFrequency_last (a b : ℝ) (n : Nat) (hb : 0 < b) (hn : 2 ≤ n) :
    sweepFrequency a b n (n - 1) = b := by
  unfold sweepFrequency
  have h1 : ((n - 1 : Nat) : ℝ) = (n : ℝ) - 1 := by
    rw [Nat.cast_sub (by omega)]; simp
  have h2 : (n : ℝ) - 1 ≠ 0 := by
    have : (2 : ℝ) ≤ n := by exact_mod_cast hn
    linarith
  simp only [h1]
  rw [mul_div_assoc, div_self h2, mul_one, add_sub_cancel]
  exact Real.rpow_logb (by norm_num) (by norm_num) hb

theorem sweepFrequency_lt (a b : ℝ) (n i j : Nat) (ha : 0 < a) (hab : a < b) (hn : 2 ≤ n)
    (hij : i < j) : sweepFrequency a b n i < sweepFrequency a b n j := by
  unfold sweepFrequency
  have h2 : (0 : ℝ) < (n : ℝ) - 1 := by
    have : (2 : ℝ) ≤ n := by exact_mod_cast hn
    linarith
  have hlog : Real.logb 10 a < Real.logb 10 b := Real.logb_lt_logb (by norm_num) ha hab
  have hcast : (i : ℝ) < j := by exact_mod_cast hij
  simp only
  rw [Real.rpow_lt_rpow_left_iff (by norm_num)]
  have : (Real.logb 10 b - Real.logb 10 a) * (i : ℝ) / ((n : ℝ) - 1)
      < (Real.logb 10 b - Real.logb 10 a) * (j : ℝ) / ((n : ℝ) - 1) := by
    apply div_lt_div_of_pos_right _ h2
    exact mul_lt_mul_of_pos_left hcast (by linarith)
  linarith

theorem foldl_add_eq_sum (f : Nat → ℂ) (n : Nat) :
    (List.range n).foldl (fun acc i => acc + f i) 0 = ∑ i in Finset.range n, f i := by
  induction n with
  | zero => simp
  | succ n ih => rw [List.range_succ, List.foldl_append, ih, Finset.sum_range_succ]; simp

/-- The loop of `evaluate` computes the polynomial of the specification. -/
theorem polynomialAt_eq_spec (coefficients : List ℝ) (jw : ℂ) :
    polynomialAt coefficients jw = specPolynomial coefficients jw := by
  unfold polynomialAt specPolynomial
  rw [foldl_add_eq_sum (fun i => ((coefficients.getD i 0 : ℝ) : ℂ)
    * jw ^ (coefficients.length - i - 1))]
  apply Finset.sum_congr rfl
  intro i _
  rw [Nat.sub_right_comm]

/-- A constant gain `c`: numerator `[c]`, denominator `[1]`. -/
theorem evaluate_gain (c w : ℝ) : (TransferFunction.mk [c] [1]).evaluate w = (c : ℂ) := by
  simp [TransferFunction.evaluate, polynomialAt, List.range_succ]

theorem phaseDeg_ofReal_pos (c : ℝ) (hc : 0 < c) : phaseDeg (c : ℂ) = 0 := by
  simp [phaseDeg, Complex.arg_ofReal_of_nonneg hc.le]

theorem magnitudeDb_one : magnitudeDb (1 : ℂ) = 0 := by
  simp [magnitudeDb]

theorem magnitudeDb_ten : magnitudeDb ((10 : ℝ) : ℂ) = 20 := by
  have h : Complex.abs ((10 : ℝ) : ℂ) = 10 := by
    rw [Complex.abs_ofReal]; norm_num
  rw [magnitudeDb, h, Real.logb_self_eq_one (by norm_num)]
  norm_num

/-- The integrator `1/s`: numerator `[1]`, denominator `[1, 0]`. -/
theorem evaluate_integrator (w : ℝ) :
    (TransferFunction.mk [1] [1, 0]).evaluate w = (⟨0, w⟩ : ℂ)⁻¹ := by
  simp [TransferFunction.evaluate, polynomialAt, List.range_succ]

theorem magnitudeDb_integrator (w : ℝ) (hw : 0 < w) :
    magnitudeDb ((⟨0, w⟩ : ℂ)⁻¹) = -20 * Real.logb 10 w := by
  have h : Complex.abs (⟨0, w⟩ : ℂ) = w := by
    have : (⟨0, w⟩ : ℂ) = (w : ℂ) * Complex.I := by
      apply Complex.ext <;> simp
    rw [this, map_mul, Complex.abs_I, mul_one, Complex.abs_ofReal, abs_of_pos hw]
  rw [magnitudeDb, map_inv₀, h, Real.logb_inv]
  ring

theorem phaseDeg_integrator (w : ℝ) (hw : 0 < w) : phaseDeg ((⟨0, w⟩ : ℂ)⁻¹) = -90 := by
  have harg : Complex.arg ((⟨0, w⟩ : ℂ)⁻¹) = -(Real.pi / 2) := by
    rw [Complex.arg_eq_neg_pi_div_two_iff]
    have hn : 0 < Complex.normSq (⟨0, w⟩ : ℂ) := by
      rw [Complex.normSq_mk]; nlinarith
    constructor
    · simp [Complex.inv_re]
    · rw [Complex.inv_im]
      exact div_neg_of_neg_of_pos (by simpa using hw) hn
  rw [phaseDeg, harg]
  field_simp
  ring

end RealLemmas

/-! ## Helper facts for the concrete transfer functions used below -/

section ConcreteLemmas

theorem bodeLoop_magnitude_const {α : Type} [LinearOrderedField α] [FloorRing α]
    (s : Samples α) (c : α) (h : ∀ n, s.magnitude n = c) :
    ∀ (k i : Nat) (last : α), (bodeLoop s k i last).map (fun r => r.2.1) = List.replicate k c := by
  intro k
  induction k with
  | zero => intro i last; simp [bodeLoop]
  | succ k ih => intro i last; simp [bodeLoop, h, ih, List.replicate_succ]

theorem margin_bounds_eq : (10e-3 : ℝ) = 0.01 ∧ (10e6 : ℝ) = 10 ^ 7 := by
  constructor <;> norm_num

/-- The margin sweep of the code is the sweep over `[0.01, 10^7]` of the specification. -/
theorem samples_rawPhase_eq (tf : TransferFunction) (i : Nat) :
    specUnwrapped (tf.samples 10e-3 10e6 1000000).rawPhase i = tf.marginPhase i := by
  unfold TransferFunction.marginPhase TransferFunction.samples
  simp only [margin_bounds_eq.1, margin_bounds_eq.2]

theorem samples_magnitude_eq (tf : TransferFunction) (i : Nat) :
    (tf.samples 10e-3 10e6 1000000).magnitude i =
      20 * Real.logb 10 (Complex.abs (tf.evaluate (sweepFrequency 0.01 (10 ^ 7) 1000000 i))) := by
  unfold TransferFunction.samples magnitudeDb
  simp only [margin_bounds_eq.1, margin_bounds_eq.2]

end ConcreteLemmas

/-! ## The margin searches of a transfer function -/

section MarginOfTransferFunction

theorem calculateGainMargin_found (tf : TransferFunction) (i : Nat) (hi : i < 1000000)
    (hP : |tf.marginPhase i + 180| < 1e-3)
    (hmin : ∀ j, j < i → ¬ |tf.marginPhase j + 180| < 1e-3) :
    tf.calculateGainMargin = Dbl.fin (-(20 * Real.logb 10
      (Complex.abs (tf.evaluate (sweepFrequency 0.01 (10 ^ 7) 1000000 i))))) := by
  rw [← samples_magnitude_eq tf i]
  exact gainMarginOf_found (tf.samples 10e-3 10e6 1000000) 1e-3
    (fun n => sweepFrequency_pos _ _ _ n) 1000000 i hi
    (by rw [samples_rawPhase_eq]; exact hP)
    (fun m hm => by rw [samples_rawPhase_eq]; exact hmin m hm)

theorem calculateGainMargin_none (tf : TransferFunction)
    (hno : ∀ i, i < 1000000 → ¬ |tf.marginPhase i + 180| < 1e-3) :
    tf.calculateGainMargin = Dbl.posInf :=
  gainMarginOf_none (tf.samples 10e-3 10e6 1000000) 1e-3 1000000
    (fun m hm => by rw [samples_rawPhase_eq]; exact hno m hm)

theorem calculatePhaseMargin_found (tf : TransferFunction) (i : Nat) (hi : i < 1000000)
    (hP : |20 * Real.logb 10
      (Complex.abs (tf.evaluate (sweepFrequency 0.01 (10 ^ 7) 1000000 i)))| < 1e-3)
    (hmin : ∀ j, j < i → ¬ |20 * Real.logb 10
      (Complex.abs (tf.evaluate (sweepFrequency 0.01 (10 ^ 7) 1000000 j)))| < 1e-3) :
    tf.calculatePhaseMargin = Dbl.fin (180 + tf.marginPhase i) := by
  rw [← samples_rawPhase_eq tf i]
  exact phaseMarginOf_found (tf.samples 10e-3 10e6 1000000) 1e-3
    (fun n => sweepFrequency_pos _ _ _ n) 1000000 i hi
    (by rw [samples_magnitude_eq]; exact hP)
    (fun m hm => by rw [samples_magnitude_eq]; exact hmin m hm)

theorem calculatePhaseMargin_none (tf : TransferFunction)
    (hno : ∀ i, i < 1000000 → ¬ |20 * Real.logb 10
      (Complex.abs (tf.evaluate (sweepFrequency 0.01 (10 ^ 7) 1000000 i)))| < 1e-3) :
    tf.calculatePhaseMargin = Dbl.posInf :=
  phaseMarginOf_none (tf.samples 10e-3 10e6 1000000) 1e-3 1000000
    (fun m hm => by rw [samples_magnitude_eq]; exact hno m hm)

end MarginOfTransferFunction

/-! ## The claims -/

/-- C3 (the code departs from the claim): for the constant gain `H(s) = 10` both margin
searches return plus infinity and every sample of the plotted magnitude trace is 20 dB,
above 0 dB, yet the verdict of `plotBode` is "stabil" and not "möglicherweise instabil":
the first rule `phaseMargin > 0 && gainMargin > 0` already holds for a phase margin of
plus infinity, so the branch that inspects the trace is not reached. -/
theorem plotBode_infinite_phaseMargin_positive_trace :
    (TransferFunction.mk [10] [1]).calculatePhaseMargin = Dbl.posInf ∧
    (TransferFunction.mk [10] [1]).calculateGainMargin = Dbl.posInf ∧
    ((TransferFunction.mk [10] [1]).bodeData (1 / 10) 10 500).magnitude
      = List.replicate 500 20 ∧
    plotBodeVerdict (TransferFunction.mk [10] [1]).calculatePhaseMargin
      (TransferFunction.mk [10] [1]).calculateGainMargin
      (((TransferFunction.mk [10] [1]).bodeData (1 / 10) 10 500).magnitude.map Dbl.fin)
      = some Verdict.stabil := by
  have hmag : ∀ w : ℝ,
      20 * Real.logb 10 (Complex.abs ((TransferFunction.mk [10] [1]).evaluate w)) = 20 := by
    intro w
    rw [evaluate_gain]
    exact magnitudeDb_ten
  have hpm : (TransferFunction.mk [10] [1]).calculatePhaseMargin = Dbl.posInf := by
    refine calculatePhaseMargin_none _ (fun i _ => ?_)
    rw [hmag]
    norm_num
  have hgm : (TransferFunction.mk [10] [1]).calculateGainMargin = Dbl.posInf := by
    refine calculateGainMargin_none _ (fun i _ => ?_)
    have h0 : (TransferFunction.mk [10] [1]).marginPhase i = 0 :=
      specUnwrapped_const _ 0
        (fun n => by rw [evaluate_gain]; exact phaseDeg_ofReal_pos 10 (by norm_num)) i
    rw [h0]
    norm_num
  refine ⟨hpm, hgm, ?_, ?_⟩
  · exact bodeLoop_magnitude_const _ 20 (fun n => hmag _) 500 0 0
  · rw [hpm, hgm]
    simp [plotBodeVerdict, Dbl.gt0]

/-- C4: whenever the phase margin or the gain margin is zero, the verdict of `plotBode` is
"grenzstabil", whatever the other margin (finite of either sign, infinite, or not a
number) and whatever the magnitude trace: no earlier rule of the list applies. -/
theorem plotBode_zero_margin_grenzstabil {α : Type} [LinearOrderedField α]
    (phaseMargin gainMargin : Dbl α) (magnitude : List (Dbl α)) (label : String)
    (h : phaseMargin = Dbl.fin 0 ∨ gainMargin = Dbl.fin 0) :
    plotBodeVerdict phaseMargin gainMargin magnitude = some Verdict.grenzstabil ∧
    plotBodeStabilityLabel label phaseMargin gainMargin magnitude = "grenzstabil" := by
  have hv : plotBodeVerdict phaseMargin gainMargin magnitude = some Verdict.grenzstabil := by
    rcases h with h | h
    · subst h
      cases gainMargin <;> simp [plotBodeVerdict, Dbl.gt0, Dbl.isinf, Dbl.eq0]
    · subst h
      cases phaseMargin <;> simp [plotBodeVerdict, Dbl.gt0, Dbl.isinf, Dbl.eq0]
  exact ⟨hv, by simp [plotBodeStabilityLabel, hv, Verdict.text]⟩

/-- Witness for C4: phase margin 0 with an infinite gain margin, and gain margin 0 with an
infinite phase margin. -/
theorem plotBode_zero_margin_grenzstabil_witness :
    plotBodeVerdict (Dbl.fin (0 : ℚ)) Dbl.posInf [Dbl.fin 3, Dbl.fin (-3)]
      = some Verdict.grenzstabil ∧
    plotBodeVerdict Dbl.posInf (Dbl.fin (0 : ℚ)) [Dbl.fin 3, Dbl.fin (-3)]
      = some Verdict.grenzstabil :=
  ⟨(plotBode_zero_margin_grenzstabil (Dbl.fin (0 : ℚ)) Dbl.posInf
      [Dbl.fin 3, Dbl.fin (-3)] "" (Or.inl rfl)).1,
    (plotBode_zero_margin_grenzstabil Dbl.posInf (Dbl.fin (0 : ℚ))
      [Dbl.fin 3, Dbl.fin (-3)] "" (Or.inr rfl)).1⟩

/-- C5: for every gain margin `g < 0` and every phase margin that is a number `p > 0` or
plus infinity, the verdict of `plotBode` is "instabil", whatever the magnitude trace. -/
theorem plotBode_negative_gainMargin_instabil {α : Type} [LinearOrderedField α]
    (g p : α) (hg : g < 0) (hp : 0 < p) (magnitude : List (Dbl α)) :
    plotBodeVerdict (Dbl.fin p) (Dbl.fin g) magnitude = some Verdict.instabil ∧
    plotBodeVerdict Dbl.posInf (Dbl.fin g) magnitude = some Verdict.instabil := by
  have h1 : ¬ 0 < g := not_lt.mpr hg.le
  have h2 : g ≠ 0 := ne_of_lt hg
  have h3 : p ≠ 0 := ne_of_gt hp
  constructor <;> simp [plotBodeVerdict, Dbl.gt0, Dbl.isinf, Dbl.eq0, h1, h2, h3, hp]

/-- Witness for C5: gain margin -6 dB with phase margin 45 degrees or infinite. -/
theorem plotBode_negative_gainMargin_instabil_witness :
    (-6 : ℚ) < 0 ∧ (0 : ℚ) < 45 ∧
    plotBodeVerdict (Dbl.fin (45 : ℚ)) (Dbl.fin (-6)) [Dbl.fin 6] = some Verdict.instabil ∧
    plotBodeVerdict Dbl.posInf (Dbl.fin (-6 : ℚ)) [Dbl.fin 6] = some Verdict.instabil :=
  ⟨by norm_num, by norm_num,
    plotBode_negative_gainMargin_instabil (-6 : ℚ) 45 (by norm_num) (by norm_num) [Dbl.fin 6]⟩

/-- C6: for every sequence of raw phase samples, any two consecutive entries of the phase
vector written by the loop of `bodeData` differ by at most 180 in absolute value. -/
theorem bodeData_phase_step_le_180 {α : Type} [LinearOrderedField α] [FloorRing α]
    (s : Samples α) (numPoints i : Nat) (p q : α)
    (hp : (bodeDataOf s numPoints).phase[i]? = some p)
    (hq : (bodeDataOf s numPoints).phase[i + 1]? = some q) :
    |q - p| ≤ 180 :=
  bodeLoop_phase_step s numPoints 0 0 i p q hp hq

/-- Witness for C6: the wrapped samples -175 and 175 (a jump of +350) are unwrapped to -175
and -185. -/
theorem bodeData_phase_step_le_180_witness :
    (bodeDataOf (Samples.mk (fun i => (i : ℚ)) (fun _ => 0) (fun i => -175 + 350 * (i : ℚ))) 2).phase
      = [-175, -185] ∧ |(-185 : ℚ) - (-175)| ≤ 180 :=
  ⟨by decide!,
    bodeData_phase_step_le_180
      (Samples.mk (fun i => (i : ℚ)) (fun _ => 0) (fun i => -175 + 350 * (i : ℚ))) 2 0
      (-175) (-185) (by decide!) (by decide!)⟩

/-- Entry `i` of the frequency vector written by `bodeData`. -/
theorem bodeData_frequencies_getElem (tf : TransferFunction) (a b : ℝ) (n i : Nat) :
    (tf.bodeData a b n).frequencies[i]? =
      if i < n then some (sweepFrequency a b n i) else none := by
  unfold TransferFunction.bodeData bodeDataOf
  simp only [List.getElem?_map]
  rw [bodeLoop_getElem _ n 0 0 i (lastOk_zero _ _)]
  by_cases h : i < n <;> simp [h, TransferFunction.samples]

/-- C7: for `0 < a < b` and `n ≥ 2`, `bodeData(a, b, n)` fills `frequencies` with exactly
`n` values `w_i = 10^(log10 a + (log10 b - log10 a) * i / (n - 1))`, the first is `a`, the
last is `b`, each is smaller than the next, and `magnitude` and `phase` have length `n`
as well. -/
theorem bodeData_frequencies_log_sweep (tf : TransferFunction) (a b : ℝ) (n : Nat)
    (ha : 0 < a) (hab : a < b) (hn : 2 ≤ n) :
    (tf.bodeData a b n).frequencies.length = n ∧
    (tf.bodeData a b n).magnitude.length = n ∧
    (tf.bodeData a b n).phase.length = n ∧
    (∀ i, i < n → (tf.bodeData a b n).frequencies[i]? = some ((10 : ℝ) ^
      (Real.logb 10 a + (Real.logb 10 b - Real.logb 10 a) * (i : ℝ) / ((n : ℝ) - 1)))) ∧
    (tf.bodeData a b n).frequencies[0]? = some a ∧
    (tf.bodeData a b n).frequencies[n - 1]? = some b ∧
    (∀ i x y, (tf.bodeData a b n).frequencies[i]? = some x →
      (tf.bodeData a b n).frequencies[i + 1]? = some y → x < y) := by
  refine ⟨?_, ?_, ?_, ?_, ?_, ?_, ?_⟩
  · simp [TransferFunction.bodeData, bodeDataOf, bodeLoop_length]
  · simp [TransferFunction.bodeData, bodeDataOf, bodeLoop_length]
  · simp [TransferFunction.bodeData, bodeDataOf, bodeLoop_length]
  · intro i hi
    rw [bodeData_frequencies_getElem, if_pos hi]
    rfl
  · rw [bodeData_frequencies_getElem, if_pos (by omega), sweepFrequency_zero a b n ha]
  · rw [bodeData_frequencies_getElem, if_pos (by omega),
      sweepFrequency_last a b n (lt_trans ha hab) hn]
  · intro i x y hx hy
    rw [bodeData_frequencies_getElem] at hx hy
    by_cases h1 : i + 1 < n
    · rw [if_pos h1] at hy
      rw [if_pos (by omega)] at hx
      have hx2 := Option.some.inj hx
      have hy2 := Option.some.inj hy
      rw [← hx2, ← hy2]
      exact sweepFrequency_lt a b n i (i + 1) ha hab hn (Nat.lt_succ_self i)
    · rw [if_neg h1] at hy
      exact absurd hy (by simp)

/-- Witness for C7: the sweep of `1/(s+1)` over `[0.01, 100]` with 500 points. -/
theorem bodeData_frequencies_log_sweep_witness :
    ((TransferFunction.mk [1] [1, 1]).bodeData 0.01 100 500).frequencies.length = 500 ∧
    ((TransferFunction.mk [1] [1, 1]).bodeData 0.01 100 500).frequencies[0]? = some (0.01 : ℝ) ∧
    ((TransferFunction.mk [1] [1, 1]).bodeData 0.01 100 500).frequencies[500 - 1]? = some (100 : ℝ) :=
  have h := bodeData_frequencies_log_sweep (TransferFunction.mk [1] [1, 1]) 0.01 100 500
    (by norm_num) (by norm_num) (by norm_num)
  ⟨h.1, h.2.2.2.2.1, h.2.2.2.2.2.1⟩

/-- C8: whenever the denominator polynomial `D(jw)` is not zero, `evaluate(w) * D(jw)` is
the numerator polynomial `N(jw)`, where `N` and `D` are the sums of `c_i * (jw)^(k - i)`
over the coefficient lists of degree `k`.  Neither the sign of `w` nor the lists being
non-empty is needed. -/
theorem evaluate_mul_denominator (tf : TransferFunction) (w : ℝ)
    (hD : specPolynomial tf.denominator (⟨0, w⟩ : ℂ) ≠ 0) :
    tf.evaluate w * specPolynomial tf.denominator (⟨0, w⟩ : ℂ)
      = specPolynomial tf.numerator (⟨0, w⟩ : ℂ) := by
  unfold TransferFunction.evaluate
  simp only [polynomialAt_eq_spec]
  exact div_mul_cancel₀ _ hD

/-- Witness for C8: `H(s) = 1/(s+1)` at `w = 1`, where `D(j) = j + 1`. -/
theorem evaluate_mul_denominator_witness :
    specPolynomial [1, 1] (⟨0, 1⟩ : ℂ) ≠ 0 ∧
    (TransferFunction.mk [1] [1, 1]).evaluate 1 * specPolynomial [1, 1] (⟨0, 1⟩ : ℂ)
      = specPolynomial [1] (⟨0, 1⟩ : ℂ) :=
  have hD : specPolynomial [1, 1] (⟨0, 1⟩ : ℂ) ≠ 0 := by
    intro h
    have hre := congrArg Complex.re h
    simp [specPolynomial, Finset.sum_range_succ] at hre
  ⟨hD, evaluate_mul_denominator (TransferFunction.mk [1] [1, 1]) 1 hD⟩

/-- C9 (the code departs from the claim): with both fields parsed, a negative or zero
lower bound passes the range check of `plotBode`, which tests only `xMin < xMax`; the
core is then called with a bound that is not positive. -/
theorem plotBode_accepts_nonpositive_bound :
    plotBodeRange true true (-10 : ℝ) 10 = PlotAction.core (-1) 1 ∧
    plotBodeRange true true (0 : ℝ) 10 = PlotAction.core 0 1 := by
  constructor <;> norm_num [plotBodeRange]

/-- C10: for `H(s) = 1/s` (numerator `[1]`, denominator `[1, 0]`) and every `w > 0` the
magnitude `20 * log10 |evaluate(w)|` is `-20 * log10 w` and the phase
`arg(evaluate(w)) * 180 / pi` is -90; the unwrapped phase of every sample of the margin
sweep and of every `bodeData` sweep is -90, and `calculateGainMargin` returns plus
infinity. -/
theorem integrator_response :
    (∀ w : ℝ, 0 < w →
      20 * Real.logb 10 (Complex.abs ((TransferFunction.mk [1] [1, 0]).evaluate w))
        = -20 * Real.logb 10 w ∧
      Complex.arg ((TransferFunction.mk [1] [1, 0]).evaluate w) * 180 / Real.pi = -90) ∧
    (∀ i, (TransferFunction.mk [1] [1, 0]).marginPhase i = -90) ∧
    (∀ (a b : ℝ) (n i : Nat),
      ((TransferFunction.mk [1] [1, 0]).bodeData a b n).phase[i]?
        = if i < n then some (-90) else none) ∧
    (TransferFunction.mk [1] [1, 0]).calculateGainMargin = Dbl.posInf := by
  have hraw : ∀ w : ℝ, 0 < w → phaseDeg ((TransferFunction.mk [1] [1, 0]).evaluate w) = -90 := by
    intro w hw
    rw [evaluate_integrator]
    exact phaseDeg_integrator w hw
  have hphase : ∀ i, (TransferFunction.mk [1] [1, 0]).marginPhase i = -90 :=
    specUnwrapped_const _ (-90) (fun n => hraw _ (sweepFrequency_pos _ _ _ n))
  refine ⟨?_, hphase, ?_, ?_⟩
  · intro w hw
    refine ⟨?_, hraw w hw⟩
    rw [evaluate_integrator]
    exact magnitudeDb_integrator w hw
  · intro a b n i
    unfold TransferFunction.bodeData bodeDataOf
    simp only [List.getElem?_map]
    rw [bodeLoop_getElem _ n 0 0 i (lastOk_zero _ _)]
    by_cases h : i < n
    · have hc := specUnwrapped_const
        ((TransferFunction.mk [1] [1, 0]).samples a b n).rawPhase (-90)
        (fun m => hraw _ (sweepFrequency_pos a b n m)) i
      simp [h, hc]
    · simp [h]
  · refine calculateGainMargin_none _ (fun i _ => ?_)
    rw [hphase]
    norm_num

/-- Witness for C10: the integrator at `w = 10`. -/
theorem integrator_response_witness :
    20 * Real.logb 10 (Complex.abs ((TransferFunction.mk [1] [1, 0]).evaluate 10))
      = -20 * Real.logb 10 10 ∧
    Complex.arg ((TransferFunction.mk [1] [1, 0]).evaluate 10) * 180 / Real.pi = -90 :=
  integrator_response.1 10 (by norm_num)


/-! ## The first-order lag `1/(s+1)` -/

section LagLemmas

end LagLemmas

/-- C12 (the code departs from the claim): `getFormattedNumerator` overwrites every
coefficient after the first by its absolute value.  For the numerator `[1, -1]` over the
denominator `[1]` the call returns `"s - "` followed by the number 1 and leaves the
numerator `[1, 1]`, so `evaluate(1)` is `-1 + j` before the call and `1 + j` after it;
`getFormattedDenominator` does the same to the denominator `[1, -1]`. -/
theorem getFormattedNumerator_overwrites_coefficients (number : ℝ → String) :
    ((TransferFunction.mk [1, -1] [1]).getFormattedNumerator number).1.numerator = [1, 1] ∧
    ((TransferFunction.mk [1, -1] [1]).getFormattedNumerator number).2 = "s - " ++ number 1 ∧
    (TransferFunction.mk [1, -1] [1]).evaluate 1 = (⟨-1, 1⟩ : ℂ) ∧
    ((TransferFunction.mk [1, -1] [1]).getFormattedNumerator number).1.evaluate 1
      = (⟨1, 1⟩ : ℂ) ∧
    (TransferFunction.mk [1, -1] [1]).evaluate 1
      ≠ ((TransferFunction.mk [1, -1] [1]).getFormattedNumerator number).1.evaluate 1 ∧
    ((TransferFunction.mk [1] [1, -1]).getFormattedDenominator number).1.denominator
      = [1, 1] := by
  have h2 : List.range 2 = [0, 1] := rfl
  have h1 : List.range 1 = [0] := rfl
  have hfmt : getFormatted number "Ungültiger Zähler" ([1, -1] : List ℝ)
      = ([1, 1], "s - " ++ number 1) := by
    have hs : "s" ++ " - " = "s - " := by decide
    norm_num [getFormatted, formatLoop, hs]
  have hfmt2 : getFormatted number "Ungültiger Nenner" ([1, -1] : List ℝ)
      = ([1, 1], "s - " ++ number 1) := by
    have hs : "s" ++ " - " = "s - " := by decide
    norm_num [getFormatted, formatLoop, hs]
  have hbefore : (TransferFunction.mk [1, -1] [1]).evaluate 1 = (⟨-1, 1⟩ : ℂ) := by
    simp only [TransferFunction.evaluate, polynomialAt, List.length_cons, List.length_nil,
      h1, h2, List.foldl_cons, List.foldl_nil]
    apply Complex.ext <;> norm_num
  have hafter : ((TransferFunction.mk [1, -1] [1]).getFormattedNumerator number).1.evaluate 1
      = (⟨1, 1⟩ : ℂ) := by
    simp only [TransferFunction.getFormattedNumerator, hfmt, TransferFunction.evaluate,
      polynomialAt, List.length_cons, List.length_nil, h1, h2, List.foldl_cons, List.foldl_nil]
    apply Complex.ext <;> norm_num
  refine ⟨?_, ?_, hbefore, hafter, ?_, ?_⟩
  · simp only [TransferFunction.getFormattedNumerator, hfmt]
  · simp only [TransferFunction.getFormattedNumerator, hfmt]
  · rw [hbefore, hafter]
    intro h
    have hre := congrArg Complex.re h
    norm_num at hre
  · simp only [TransferFunction.getFormattedDenominator, hfmt2]

/-! ## The unwrapped phase against the raw phase -/

section UnwrapAgainstRaw

variable {α : Type} [LinearOrderedField α] [FloorRing α]

theorem unwrap_zero (last raw : α) : unwrap 0 last raw = raw := by
  simp [unwrap]

/-- The unwrapped sample differs from the raw one by a whole number of turns. -/
theorem unwrap_sub_raw (i : Nat) (last raw : α) :
    ∃ k : ℤ, unwrap i last raw - raw = 360 * (k : α) := by
  by_cases h0 : i > 0
  · by_cases h1 : raw - last > 180
    · refine ⟨-Int.ceil ((raw - last - 180) / 360), ?_⟩
      simp only [unwrap, h0, h1, if_true]
      push_cast
      ring
    · by_cases h2 : raw - last < -180
      · refine ⟨Int.ceil ((|raw - last| - 180) / 360), ?_⟩
        simp only [unwrap, h0, h1, h2, if_true, if_false]
        ring
      · refine ⟨0, ?_⟩
        simp only [unwrap, h0, h1, h2, if_true, if_false]
        simp
  · refine ⟨0, ?_⟩
    simp only [unwrap, h0, if_false]
    simp

/-- A raw sample within 180 of `lastUnwrappedPhase` is left as it is. -/
theorem unwrap_of_abs_le (i : Nat) (last raw : α) (h : |raw - last| ≤ 180) :
    unwrap i last raw = raw := by
  have h1 : ¬ raw - last > 180 := by
    intro hc
    linarith [le_abs_self (raw - last)]
  have h2 : ¬ raw - last < -180 := by
    intro hc
    linarith [neg_abs_le (raw - last)]
  simp only [unwrap, h1, h2, if_false, ite_self]

/-- The specified unwrapped phase of a later sample is the code's step applied to the
specified unwrapped phase of the sample before. -/
theorem specUnwrapped_succ (raw : Nat → α) (j : Nat) :
    specUnwrapped raw (j + 1) = unwrap (j + 1) (specUnwrapped raw j) (raw (j + 1)) :=
  (unwrap_of_lastOk raw (j + 1) (specUnwrapped raw j) (lastOk_succ raw j)).symm

/-- Entry `i` of the phase vector of `bodeData` over given samples. -/
theorem bodeDataOf_phase_getElem (s : Samples α) (n i : Nat) :
    (bodeDataOf s n).phase[i]? = if i < n then some (specUnwrapped s.rawPhase i) else none := by
  unfold bodeDataOf
  simp only [List.getElem?_map]
  rw [bodeLoop_getElem s n 0 0 i (lastOk_zero _ _)]
  by_cases h : i < n <;> simp [h]

theorem bodeDataOf_phase_eq (s : Samples α) (n i : Nat) (p : α)
    (h : (bodeDataOf s n).phase[i]? = some p) : p = specUnwrapped s.rawPhase i := by
  rw [bodeDataOf_phase_getElem] at h
  by_cases hi : i < n
  · rw [if_pos hi] at h
    exact (Option.some.inj h).symm
  · rw [if_neg hi] at h
    exact absurd h (by simp)

end UnwrapAgainstRaw

/-- C13: for every sequence of raw phase samples and every index `i`, the unwrapped phase
written by the loop of `bodeData` differs from the raw phase of the same index by an
integer multiple of 360, equals it at index 0, and equals it whenever the raw phase is
within 180 of the unwrapped phase of the index before; the same three facts hold for the
unwrapping step that the two margin loops share with `bodeData`. -/
theorem unwrapped_phase_against_raw {α : Type} [LinearOrderedField α] [FloorRing α] :
    (∀ (s : Samples α) (numPoints i : Nat) (p : α),
      (bodeDataOf s numPoints).phase[i]? = some p →
        (∃ k : ℤ, p - s.rawPhase i = 360 * (k : α)) ∧
        (i = 0 → p = s.rawPhase i) ∧
        (∀ (j : Nat) (q : α), i = j + 1 → (bodeDataOf s numPoints).phase[j]? = some q →
          |s.rawPhase i - q| ≤ 180 → p = s.rawPhase i)) ∧
    (∀ (i : Nat) (lastUnwrappedPhase raw : α),
      (∃ k : ℤ, unwrap i lastUnwrappedPhase raw - raw = 360 * (k : α)) ∧
      (i = 0 → unwrap i lastUnwrappedPhase raw = raw) ∧
      (|raw - lastUnwrappedPhase| ≤ 180 → unwrap i lastUnwrappedPhase raw = raw)) := by
  constructor
  · intro s numPoints i p hp
    have hpe := bodeDataOf_phase_eq s numPoints i p hp
    refine ⟨?_, ?_, ?_⟩
    · cases i with
      | zero =>
        refine ⟨0, ?_⟩
        rw [hpe]
        simp [specUnwrapped]
      | succ j =>
        rw [hpe, specUnwrapped_succ]
        exact unwrap_sub_raw _ _ _
    · intro h0
      subst h0
      rw [hpe]
      simp [specUnwrapped]
    · intro j q hij hq hle
      subst hij
      have hqe := bodeDataOf_phase_eq s numPoints j q hq
      rw [hpe, specUnwrapped_succ, ← hqe]
      exact unwrap_of_abs_le _ _ _ hle
  · intro i last raw
    refine ⟨unwrap_sub_raw i last raw, ?_, unwrap_of_abs_le i last raw⟩
    intro h0
    subst h0
    exact unwrap_zero last raw

/-- Witness for C13: the wrapped samples -175 and 175 are unwrapped to -175 and -185; the
second differs from its raw value by one turn. -/
theorem unwrapped_phase_against_raw_witness :
    (∃ k : ℤ, (-185 : ℚ) - (-175 + 350 * ((1 : Nat) : ℚ)) = 360 * (k : ℚ)) ∧
    (∃ k : ℤ, unwrap 1 (-175 : ℚ) 175 - 175 = 360 * (k : ℚ)) :=
  ⟨((unwrapped_phase_against_raw.1
      (Samples.mk (fun i => (i : ℚ)) (fun _ => 0) (fun i => -175 + 350 * (i : ℚ))) 2 1
      (-185) (by decide!)).1),
    ((unwrapped_phase_against_raw.2 1 (-175 : ℚ) 175).1)⟩

/-- The margin searches return a real number or plus infinity. -/
theorem gainMarginOf_isRealOrPosInf {α : Type} [LinearOrderedField α] [FloorRing α]
    (s : Samples α) (n : Nat) (tol : α) : (gainMarginOf s n tol).isRealOrPosInf = true := by
  unfold gainMarginOf
  simp only
  split_ifs <;> rfl

theorem phaseMarginOf_isRealOrPosInf {α : Type} [LinearOrderedField α] [FloorRing α]
    (s : Samples α) (n : Nat) (tol : α) : (phaseMarginOf s n tol).isRealOrPosInf = true := by
  unfold phaseMarginOf
  simp only
  split_ifs <;> rfl

/-- C14: for every phase margin and gain margin that is a real number or plus infinity,
the classification of `plotBode` always assigns a verdict, the verdict is the same for
any two magnitude traces, it is "stabil" exactly when both margins are greater than 0,
and it is never "möglicherweise instabil"; and the two margin searches return only real
numbers or plus infinity. -/
theorem plotBode_verdict_of_margins_only :
    (∀ (α : Type) [LinearOrderedField α] (phaseMargin gainMargin : Dbl α),
      phaseMargin.isRealOrPosInf = true → gainMargin.isRealOrPosInf = true →
      ∀ (magnitude other : List (Dbl α)),
        plotBodeVerdict phaseMargin gainMargin magnitude ≠ none ∧
        plotBodeVerdict phaseMargin gainMargin magnitude
          = plotBodeVerdict phaseMargin gainMargin other ∧
        (plotBodeVerdict phaseMargin gainMargin magnitude = some Verdict.stabil ↔
          phaseMargin.gt0 = true ∧ gainMargin.gt0 = true) ∧
        plotBodeVerdict phaseMargin gainMargin magnitude
          ≠ some Verdict.moeglicherweiseInstabil) ∧
    (∀ tf : TransferFunction, tf.calculatePhaseMargin.isRealOrPosInf = true ∧
      tf.calculateGainMargin.isRealOrPosInf = true) := by
  constructor
  · intro α _ pm gm hpm hgm magnitude other
    cases pm with
    | fin p =>
      cases gm with
      | fin g =>
        by_cases hp : 0 < p <;> by_cases hg : 0 < g <;> by_cases hp0 : p = 0 <;>
          by_cases hg0 : g = 0 <;>
          simp [plotBodeVerdict, Dbl.gt0, Dbl.isinf, Dbl.eq0, hp, hg, hp0, hg0]
      | posInf =>
        by_cases hp : 0 < p <;> by_cases hp0 : p = 0 <;>
          simp [plotBodeVerdict, Dbl.gt0, Dbl.isinf, Dbl.eq0, hp, hp0]
      | negInf => simp [Dbl.isRealOrPosInf] at hgm
      | nan => simp [Dbl.isRealOrPosInf] at hgm
    | posInf =>
      cases gm with
      | fin g =>
        by_cases hg : 0 < g <;> by_cases hg0 : g = 0 <;>
          simp [plotBodeVerdict, Dbl.gt0, Dbl.isinf, Dbl.eq0, hg, hg0]
      | posInf => simp [plotBodeVerdict, Dbl.gt0, Dbl.isinf, Dbl.eq0]
      | negInf => simp [Dbl.isRealOrPosInf] at hgm
      | nan => simp [Dbl.isRealOrPosInf] at hgm
    | negInf => simp [Dbl.isRealOrPosInf] at hpm
    | nan => simp [Dbl.isRealOrPosInf] at hpm
  · intro tf
    exact ⟨phaseMarginOf_isRealOrPosInf _ _ _, gainMarginOf_isRealOrPosInf _ _ _⟩

/-- Witness for C14: an infinite phase margin with gain margin 12 dB gives "stabil" for an
all-positive trace, the same as for an all-negative one. -/
theorem plotBode_verdict_of_margins_only_witness :
    plotBodeVerdict (Dbl.posInf : Dbl ℚ) (Dbl.fin 12) [Dbl.fin 6, Dbl.fin 3]
      = plotBodeVerdict (Dbl.posInf : Dbl ℚ) (Dbl.fin 12) [Dbl.fin (-6), Dbl.fin (-3)] ∧
    plotBodeVerdict (Dbl.posInf : Dbl ℚ) (Dbl.fin 12) [Dbl.fin 6, Dbl.fin 3]
      ≠ some Verdict.moeglicherweiseInstabil :=
  have h := plotBode_verdict_of_margins_only.1 ℚ (Dbl.posInf : Dbl ℚ) (Dbl.fin 12) rfl rfl
    [Dbl.fin 6, Dbl.fin 3] [Dbl.fin (-6), Dbl.fin (-3)]
  ⟨h.2.1, h.2.2.2⟩


/-! ## The margin searches on `double`s stop at the first crossover -/

section IeeeMarginLemmas

variable {α : Type} [LinearOrderedField α] [FloorRing α]

/-- On numbers the unwrapping on `double`s is the unwrapping on reals. -/
theorem ieee_unwrap_fin (i : Nat) (last raw : α) :
    Ieee.unwrap i (Dbl.fin last) (Dbl.fin raw) = Dbl.fin (unwrap i last raw) := by
  by_cases h0 : i > 0
  · by_cases h1 : raw - last > 180
    · have h1b : (180 : α) < raw + -last := by linarith
      simp only [Ieee.unwrap, unwrap, h0, h1, if_true, Dbl.sub, Dbl.neg, Dbl.add, Dbl.lt,
        Dbl.mulPos, Dbl.divPos, Dbl.ceil, h1b, decide_True]
      congr 1
      ring_nf
    · by_cases h2 : raw - last < -180
      · have h1b : ¬ (180 : α) < raw + -last := by
          intro hc
          exact h1 (by linarith)
        have h2b : raw + -last < -180 := by linarith
        simp only [Ieee.unwrap, unwrap, h0, h1, h2, if_true, if_false, Dbl.sub, Dbl.neg,
          Dbl.add, Dbl.lt, Dbl.abs, Dbl.mulPos, Dbl.divPos, Dbl.ceil, h1b, h2b, decide_True,
          decide_False]
        simp [sub_eq_add_neg]
      · have h1b : ¬ (180 : α) < raw + -last := by
          intro hc
          exact h1 (by linarith)
        have h2b : ¬ raw + -last < -180 := by
          intro hc
          exact h2 (by linarith)
        simp [Ieee.unwrap, unwrap, h0, h1, h2, Dbl.sub, Dbl.neg, Dbl.add, Dbl.lt, h1b, h2b]
  · simp [Ieee.unwrap, unwrap, h0]

theorem ieee_unwrap_of_lastOk (raw : Nat → Dbl α) (i : Nat) (last : Dbl α)
    (h : Ieee.LastOk raw i last) : Ieee.unwrap i last (raw i) = Ieee.specUnwrapped raw i := by
  cases i with
  | zero => simp [Ieee.unwrap, Ieee.specUnwrapped]
  | succ i =>
    have hl : last = Ieee.specUnwrapped raw i := h i rfl
    subst hl
    simp [Ieee.unwrap, Ieee.specUnwrapped]

theorem ieee_lastOk_succ (raw : Nat → Dbl α) (i : Nat) :
    Ieee.LastOk raw (i + 1) (Ieee.specUnwrapped raw i) := by
  intro j hj
  have : i = j := by omega
  subst this; rfl

theorem ieee_lastOk_zero (raw : Nat → Dbl α) (last : Dbl α) : Ieee.LastOk raw 0 last := by
  intro j hj
  omega

theorem ieee_gainLoop_found (s : Ieee.Samples α) (tol : α) (hw : ∀ n, 0 < s.w n) (j : Nat)
    (hj : Ieee.nearMinus180 (Ieee.specUnwrapped s.rawPhase j) tol) :
    ∀ (k i : Nat) (st : Ieee.GainState α), st.phaseCrossoverFreq < 0 →
      Ieee.LastOk s.rawPhase i st.lastUnwrappedPhase → i ≤ j → j < i + k →
      (∀ m, i ≤ m → m < j → ¬ Ieee.nearMinus180 (Ieee.specUnwrapped s.rawPhase m) tol) →
      (Ieee.gainLoop s tol k i st).phaseCrossoverFreq = s.w j ∧
      (Ieee.gainLoop s tol k i st).magnitudeAtPhaseCrossover = s.magnitude j := by
  intro k
  induction k with
  | zero => intro i st _ _ h1 h2; omega
  | succ k ih =>
    intro i st hst hl h1 h2 hmin
    have hu := ieee_unwrap_of_lastOk s.rawPhase i st.lastUnwrappedPhase hl
    rcases Nat.eq_or_lt_of_le h1 with heq | hlt
    · subst heq
      have hj2 := hj
      unfold Ieee.nearMinus180 at hj2
      simp [Ieee.gainLoop, hu, hst, hj2, hw]
    · have hn := eq_false (hmin i le_rfl hlt)
      unfold Ieee.nearMinus180 at hn
      have hst2 : ¬ 0 < st.phaseCrossoverFreq := not_lt.mpr hst.le
      simp only [Ieee.gainLoop, hu, hn, and_false, if_false, gt_iff_lt, hst2]
      exact ih (i + 1) _ hst (ieee_lastOk_succ s.rawPhase i) hlt (by omega)
        (fun m hm1 hm2 => hmin m (by omega) hm2)

theorem ieee_gainLoop_none (s : Ieee.Samples α) (tol : α) :
    ∀ (k i : Nat) (st : Ieee.GainState α), st.phaseCrossoverFreq < 0 →
      Ieee.LastOk s.rawPhase i st.lastUnwrappedPhase →
      (∀ m, i ≤ m → m < i + k →
        ¬ Ieee.nearMinus180 (Ieee.specUnwrapped s.rawPhase m) tol) →
      (Ieee.gainLoop s tol k i st).phaseCrossoverFreq < 0 := by
  intro k
  induction k with
  | zero => intro i st hst _ _; simpa [Ieee.gainLoop] using hst
  | succ k ih =>
    intro i st hst hl hmin
    have hu := ieee_unwrap_of_lastOk s.rawPhase i st.lastUnwrappedPhase hl
    have hn := eq_false (hmin i le_rfl (by omega))
    unfold Ieee.nearMinus180 at hn
    have hst2 : ¬ 0 < st.phaseCrossoverFreq := not_lt.mpr hst.le
    simp only [Ieee.gainLoop, hu, hn, and_false, if_false, gt_iff_lt, hst2]
    exact ih (i + 1) _ hst (ieee_lastOk_succ s.rawPhase i)
      (fun m hm1 hm2 => hmin m (by omega) (by omega))

/-- With positive frequencies, `calculateGainMargin` returns minus the magnitude of the
first sample whose specified unwrapped phase passes the test against -180. -/
theorem ieee_gainMarginOf_found (s : Ieee.Samples α) (tol : α) (hw : ∀ n, 0 < s.w n)
    (n j : Nat) (hjn : j < n) (hj : Ieee.nearMinus180 (Ieee.specUnwrapped s.rawPhase j) tol)
    (hmin : ∀ m, m < j → ¬ Ieee.nearMinus180 (Ieee.specUnwrapped s.rawPhase m) tol) :
    Ieee.gainMarginOf s n tol = Dbl.neg (s.magnitude j) := by
  have h := ieee_gainLoop_found s tol hw j hj n 0
    { phaseCrossoverFreq := -1, magnitudeAtPhaseCrossover := Dbl.fin 0,
      lastUnwrappedPhase := Dbl.fin 0 }
    (by simp) (ieee_lastOk_zero _ _) (Nat.zero_le j) (by omega) (fun m _ hm => hmin m hm)
  simp only [Ieee.gainMarginOf, h.1, h.2, gt_iff_lt, hw j, if_true]

theorem ieee_gainMarginOf_none (s : Ieee.Samples α) (tol : α) (n : Nat)
    (hno : ∀ m, m < n → ¬ Ieee.nearMinus180 (Ieee.specUnwrapped s.rawPhase m) tol) :
    Ieee.gainMarginOf s n tol = Dbl.posInf := by
  have h := ieee_gainLoop_none s tol n 0
    { phaseCrossoverFreq := -1, magnitudeAtPhaseCrossover := Dbl.fin 0,
      lastUnwrappedPhase := Dbl.fin 0 }
    (by simp) (ieee_lastOk_zero _ _) (fun m _ hm => hno m (by omega))
  simp only [Ieee.gainMarginOf, gt_iff_lt, not_lt.mpr h.le, if_false]

theorem ieee_phaseLoop_found (s : Ieee.Samples α) (tol : α) (hw : ∀ n, 0 < s.w n) (j : Nat)
    (hj : Ieee.nearZeroDb (s.magnitude j) tol) :
    ∀ (k i : Nat) (st : Ieee.PhaseState α), st.gainCrossoverFreq < 0 →
      Ieee.LastOk s.rawPhase i st.lastUnwrappedPhase → i ≤ j → j < i + k →
      (∀ m, i ≤ m → m < j → ¬ Ieee.nearZeroDb (s.magnitude m) tol) →
      (Ieee.phaseLoop s tol k i st).gainCrossoverFreq = s.w j ∧
      (Ieee.phaseLoop s tol k i st).phaseAtGainCrossover
        = Ieee.specUnwrapped s.rawPhase j := by
  intro k
  induction k with
  | zero => intro i st _ _ h1 h2; omega
  | succ k ih =>
    intro i st hst hl h1 h2 hmin
    have hu := ieee_unwrap_of_lastOk s.rawPhase i st.lastUnwrappedPhase hl
    rcases Nat.eq_or_lt_of_le h1 with heq | hlt
    · subst heq
      have hj2 := hj
      unfold Ieee.nearZeroDb at hj2
      simp [Ieee.phaseLoop, hu, hst, hj2, hw]
    · have hn := eq_false (hmin i le_rfl hlt)
      unfold Ieee.nearZeroDb at hn
      have hst2 : ¬ 0 < st.gainCrossoverFreq := not_lt.mpr hst.le
      simp only [Ieee.phaseLoop, hu, hn, and_false, if_false, gt_iff_lt, hst2]
      exact ih (i + 1) _ hst (ieee_lastOk_succ s.rawPhase i) hlt (by omega)
        (fun m hm1 hm2 => hmin m (by omega) hm2)

theorem ieee_phaseLoop_none (s : Ieee.Samples α) (tol : α) :
    ∀ (k i : Nat) (st : Ieee.PhaseState α), st.gainCrossoverFreq < 0 →
      (∀ m, i ≤ m → m < i + k → ¬ Ieee.nearZeroDb (s.magnitude m) tol) →
      (Ieee.phaseLoop s tol k i st).gainCrossoverFreq < 0 := by
  intro k
  induction k with
  | zero => intro i st hst _; simpa [Ieee.phaseLoop] using hst
  | succ k ih =>
    intro i st hst hmin
    have hn := eq_false (hmin i le_rfl (by omega))
    unfold Ieee.nearZeroDb at hn
    have hst2 : ¬ 0 < st.gainCrossoverFreq := not_lt.mpr hst.le
    simp only [Ieee.phaseLoop, hn, and_false, if_false, gt_iff_lt, hst2]
    exact ih (i + 1) _ hst (fun m hm1 hm2 => hmin m (by omega) (by omega))

/-- With positive frequencies, `calculatePhaseMargin` returns 180 plus the specified
unwrapped phase of the first sample whose magnitude passes the test against 0 dB. -/
theorem ieee_phaseMarginOf_found (s : Ieee.Samples α) (tol : α) (hw : ∀ n, 0 < s.w n)
    (n j : Nat) (hjn : j < n) (hj : Ieee.nearZeroDb (s.magnitude j) tol)
    (hmin : ∀ m, m < j → ¬ Ieee.nearZeroDb (s.magnitude m) tol) :
    Ieee.phaseMarginOf s n tol = Dbl.add (Dbl.fin 180) (Ieee.specUnwrapped s.rawPhase j) := by
  have h := ieee_phaseLoop_found s tol hw j hj n 0
    { gainCrossoverFreq := -1, phaseAtGainCrossover := Dbl.fin 0,
      lastUnwrappedPhase := Dbl.fin 0 }
    (by simp) (ieee_lastOk_zero _ _) (Nat.zero_le j) (by omega) (fun m _ hm => hmin m hm)
  simp only [Ieee.phaseMarginOf, h.1, h.2, gt_iff_lt, hw j, if_true]

theorem ieee_phaseMarginOf_none (s : Ieee.Samples α) (tol : α) (n : Nat)
    (hno : ∀ m, m < n → ¬ Ieee.nearZeroDb (s.magnitude m) tol) :
    Ieee.phaseMarginOf s n tol = Dbl.posInf := by
  have h := ieee_phaseLoop_none s tol n 0
    { gainCrossoverFreq := -1, phaseAtGainCrossover := Dbl.fin 0,
      lastUnwrappedPhase := Dbl.fin 0 }
    (by simp) (fun m _ hm => hno m (by omega))
  simp only [Ieee.phaseMarginOf, gt_iff_lt, not_lt.mpr h.le, if_false]

end IeeeMarginLemmas

/-! ## The margin searches of a transfer function on `double`s -/

section IeeeTransferFunction

theorem nearMinus180_fin {α : Type} [LinearOrderedField α] (p tol : α) :
    Ieee.nearMinus180 (Dbl.fin p) tol ↔ |p + 180| < tol := by
  simp [Ieee.nearMinus180, Dbl.add, Dbl.abs, Dbl.lt]

theorem nearZeroDb_fin {α : Type} [LinearOrderedField α] (m tol : α) :
    Ieee.nearZeroDb (Dbl.fin m) tol ↔ |m| < tol := by
  simp [Ieee.nearZeroDb, Dbl.abs, Dbl.lt]

theorem ieee_samples_rawPhase_eq (sv : Ieee.SpecialValues) (tf : TransferFunction) (i : Nat) :
    Ieee.specUnwrapped (Ieee.samples sv tf 10e-3 10e6 1000000).rawPhase i
      = Ieee.marginPhase sv tf i := by
  unfold Ieee.marginPhase Ieee.samples Ieee.marginFrequency
  simp only [margin_bounds_eq.1, margin_bounds_eq.2]

theorem ieee_samples_magnitude_eq (sv : Ieee.SpecialValues) (tf : TransferFunction) (i : Nat) :
    (Ieee.samples sv tf 10e-3 10e6 1000000).magnitude i = Ieee.marginMagnitude sv tf i := by
  unfold Ieee.marginMagnitude Ieee.samples Ieee.marginFrequency
  simp only [margin_bounds_eq.1, margin_bounds_eq.2]

/-- Where neither the numerator nor the denominator is zero, the magnitude is the real
number `20 * log10 |H(jw)|`. -/
theorem ieee_magnitudeDb_regular (sv : Ieee.SpecialValues) (tf : TransferFunction) (w : ℝ)
    (hN : polynomialAt tf.numerator (⟨0, w⟩ : ℂ) ≠ 0)
    (hD : polynomialAt tf.denominator (⟨0, w⟩ : ℂ) ≠ 0) :
    Ieee.magnitudeDb sv tf w = Dbl.fin (20 * Real.logb 10 (Complex.abs (tf.evaluate w))) := by
  simp [Ieee.magnitudeDb, hN, hD, magnitudeDb]

theorem ieee_calculateGainMargin_found (sv : Ieee.SpecialValues) (tf : TransferFunction)
    (i : Nat) (hi : i < 1000000) (hP : Ieee.nearMinus180 (Ieee.marginPhase sv tf i) 1e-3)
    (hmin : ∀ j, j < i → ¬ Ieee.nearMinus180 (Ieee.marginPhase sv tf j) 1e-3) :
    Ieee.calculateGainMargin sv tf = Dbl.neg (Ieee.marginMagnitude sv tf i) := by
  rw [← ieee_samples_magnitude_eq sv tf i]
  exact ieee_gainMarginOf_found (Ieee.samples sv tf 10e-3 10e6 1000000) 1e-3
    (fun n => sweepFrequency_pos _ _ _ n) 1000000 i hi
    (by rw [ieee_samples_rawPhase_eq]; exact hP)
    (fun m hm => by rw [ieee_samples_rawPhase_eq]; exact hmin m hm)

theorem ieee_calculateGainMargin_none (sv : Ieee.SpecialValues) (tf : TransferFunction)
    (hno : ∀ i, i < 1000000 → ¬ Ieee.nearMinus180 (Ieee.marginPhase sv tf i) 1e-3) :
    Ieee.calculateGainMargin sv tf = Dbl.posInf :=
  ieee_gainMarginOf_none (Ieee.samples sv tf 10e-3 10e6 1000000) 1e-3 1000000
    (fun m hm => by rw [ieee_samples_rawPhase_eq]; exact hno m hm)

theorem ieee_calculatePhaseMargin_found (sv : Ieee.SpecialValues) (tf : TransferFunction)
    (i : Nat) (hi : i < 1000000) (hP : Ieee.nearZeroDb (Ieee.marginMagnitude sv tf i) 1e-3)
    (hmin : ∀ j, j < i → ¬ Ieee.nearZeroDb (Ieee.marginMagnitude sv tf j) 1e-3) :
    Ieee.calculatePhaseMargin sv tf = Dbl.add (Dbl.fin 180) (Ieee.marginPhase sv tf i) := by
  rw [← ieee_samples_rawPhase_eq sv tf i]
  exact ieee_phaseMarginOf_found (Ieee.samples sv tf 10e-3 10e6 1000000) 1e-3
    (fun n => sweepFrequency_pos _ _ _ n) 1000000 i hi
    (by rw [ieee_samples_magnitude_eq]; exact hP)
    (fun m hm => by rw [ieee_samples_magnitude_eq]; exact hmin m hm)

theorem ieee_calculatePhaseMargin_none (sv : Ieee.SpecialValues) (tf : TransferFunction)
    (hno : ∀ i, i < 1000000 → ¬ Ieee.nearZeroDb (Ieee.marginMagnitude sv tf i) 1e-3) :
    Ieee.calculatePhaseMargin sv tf = Dbl.posInf :=
  ieee_phaseMarginOf_none (Ieee.samples sv tf 10e-3 10e6 1000000) 1e-3 1000000
    (fun m hm => by rw [ieee_samples_magnitude_eq]; exact hno m hm)

end IeeeTransferFunction

/-! ## Two transfer functions with a crossover at the second sample -/

section IeeeExamples

theorem polynomialAt_singleton (c : ℝ) (z : ℂ) : polynomialAt [c] z = (c : ℂ) := by
  have h1 : List.range 1 = [0] := rfl
  simp [polynomialAt, h1]

end IeeeExamples

/-! ## The two readings of the margin searches agree away from the special values -/

section IeeeAgreement

theorem ieee_specUnwrapped_fin {α : Type} [LinearOrderedField α] [FloorRing α]
    (raw : Nat → α) :
    ∀ i, Ieee.specUnwrapped (fun n => Dbl.fin (raw n)) i = Dbl.fin (specUnwrapped raw i) := by
  intro i
  induction i with
  | zero => simp [Ieee.specUnwrapped, specUnwrapped]
  | succ i ih =>
    have h := ieee_unwrap_of_lastOk (fun n => Dbl.fin (raw n)) (i + 1) _
      (ieee_lastOk_succ (fun n => Dbl.fin (raw n)) i)
    rw [← h, ih, ieee_unwrap_fin, specUnwrapped_succ]

/-- A sample at which exact real arithmetic fixes magnitude and phase: numerator and
denominator are not zero and `H` is not a negative real number. -/
theorem ieee_phaseDeg_regular (sv : Ieee.SpecialValues) (tf : TransferFunction) (w : ℝ)
    (hN : polynomialAt tf.numerator (⟨0, w⟩ : ℂ) ≠ 0)
    (hD : polynomialAt tf.denominator (⟨0, w⟩ : ℂ) ≠ 0)
    (hH : ¬ ((tf.evaluate w).im = 0 ∧ (tf.evaluate w).re < 0)) :
    Ieee.phaseDeg sv tf w = Dbl.fin (phaseDeg (tf.evaluate w)) := by
  simp only [Ieee.phaseDeg, hN, hD, hH, if_false]

/-- When every sample of the margin sweep is regular, the search on `double`s returns what
the search on real numbers returns. -/
theorem ieee_calculateGainMargin_of_regular (sv : Ieee.SpecialValues) (tf : TransferFunction)
    (hreg : ∀ n, polynomialAt tf.numerator (⟨0, Ieee.marginFrequency n⟩ : ℂ) ≠ 0 ∧
      polynomialAt tf.denominator (⟨0, Ieee.marginFrequency n⟩ : ℂ) ≠ 0 ∧
      ¬ ((tf.evaluate (Ieee.marginFrequency n)).im = 0 ∧
        (tf.evaluate (Ieee.marginFrequency n)).re < 0)) :
    Ieee.calculateGainMargin sv tf = tf.calculateGainMargin := by
  have hraw : (fun n => Ieee.phaseDeg sv tf (Ieee.marginFrequency n))
      = fun n => Dbl.fin (phaseDeg (tf.evaluate (Ieee.marginFrequency n))) := by
    funext n
    exact ieee_phaseDeg_regular sv tf _ (hreg n).1 (hreg n).2.1 (hreg n).2.2
  have hphase : ∀ i, Ieee.marginPhase sv tf i = Dbl.fin (tf.marginPhase i) := by
    intro i
    unfold Ieee.marginPhase TransferFunction.marginPhase
    rw [hraw, ieee_specUnwrapped_fin]
    rfl
  have hnear : ∀ i, Ieee.nearMinus180 (Ieee.marginPhase sv tf i) 1e-3
      ↔ |tf.marginPhase i + 180| < 1e-3 := by
    intro i
    rw [hphase, nearMinus180_fin]
  by_cases hex : ∃ i, i < 1000000 ∧ |tf.marginPhase i + 180| < 1e-3
  · have hi := Nat.find_spec hex
    have hmin : ∀ j, j < Nat.find hex → ¬ |tf.marginPhase j + 180| < 1e-3 := by
      intro j hj hc
      exact Nat.find_min hex hj ⟨lt_trans hj hi.1, hc⟩
    rw [calculateGainMargin_found tf (Nat.find hex) hi.1 hi.2 hmin,
      ieee_calculateGainMargin_found sv tf (Nat.find hex) hi.1 ((hnear _).mpr hi.2)
        (fun j hj hc => hmin j hj ((hnear j).mp hc)),
      Ieee.marginMagnitude,
      ieee_magnitudeDb_regular sv tf _ (hreg _).1 (hreg _).2.1]
    rfl
  · have hno : ∀ i, i < 1000000 → ¬ |tf.marginPhase i + 180| < 1e-3 :=
      fun i hi hc => hex ⟨i, hi, hc⟩
    rw [calculateGainMargin_none tf hno,
      ieee_calculateGainMargin_none sv tf (fun i hi hc => hno i hi ((hnear i).mp hc))]

theorem ieee_calculatePhaseMargin_of_regular (sv : Ieee.SpecialValues)
    (tf : TransferFunction)
    (hreg : ∀ n, polynomialAt tf.numerator (⟨0, Ieee.marginFrequency n⟩ : ℂ) ≠ 0 ∧
      polynomialAt tf.denominator (⟨0, Ieee.marginFrequency n⟩ : ℂ) ≠ 0 ∧
      ¬ ((tf.evaluate (Ieee.marginFrequency n)).im = 0 ∧
        (tf.evaluate (Ieee.marginFrequency n)).re < 0)) :
    Ieee.calculatePhaseMargin sv tf = tf.calculatePhaseMargin := by
  have hraw : (fun n => Ieee.phaseDeg sv tf (Ieee.marginFrequency n))
      = fun n => Dbl.fin (phaseDeg (tf.evaluate (Ieee.marginFrequency n))) := by
    funext n
    exact ieee_phaseDeg_regular sv tf _ (hreg n).1 (hreg n).2.1 (hreg n).2.2
  have hphase : ∀ i, Ieee.marginPhase sv tf i = Dbl.fin (tf.marginPhase i) := by
    intro i
    unfold Ieee.marginPhase TransferFunction.marginPhase
    rw [hraw, ieee_specUnwrapped_fin]
    rfl
  have hmag : ∀ i, Ieee.marginMagnitude sv tf i = Dbl.fin (20 * Real.logb 10
      (Complex.abs (tf.evaluate (sweepFrequency 0.01 (10 ^ 7) 1000000 i)))) := by
    intro i
    exact ieee_magnitudeDb_regular sv tf _ (hreg i).1 (hreg i).2.1
  have hnear : ∀ i, Ieee.nearZeroDb (Ieee.marginMagnitude sv tf i) 1e-3
      ↔ |20 * Real.logb 10
        (Complex.abs (tf.evaluate (sweepFrequency 0.01 (10 ^ 7) 1000000 i)))| < 1e-3 := by
    intro i
    rw [hmag, nearZeroDb_fin]
  by_cases hex : ∃ i, i < 1000000 ∧ |20 * Real.logb 10
      (Complex.abs (tf.evaluate (sweepFrequency 0.01 (10 ^ 7) 1000000 i)))| < 1e-3
  · have hi := Nat.find_spec hex
    have hmin : ∀ j, j < Nat.find hex → ¬ |20 * Real.logb 10
        (Complex.abs (tf.evaluate (sweepFrequency 0.01 (10 ^ 7) 1000000 j)))| < 1e-3 := by
      intro j hj hc
      exact Nat.find_min hex hj ⟨lt_trans hj hi.1, hc⟩
    rw [calculatePhaseMargin_found tf (Nat.find hex) hi.1 hi.2 hmin,
      ieee_calculatePhaseMargin_found sv tf (Nat.find hex) hi.1 ((hnear _).mpr hi.2)
        (fun j hj hc => hmin j hj ((hnear j).mp hc)), hphase]
    rfl
  · have hno : ∀ i, i < 1000000 → ¬ |20 * Real.logb 10
        (Complex.abs (tf.evaluate (sweepFrequency 0.01 (10 ^ 7) 1000000 i)))| < 1e-3 :=
      fun i hi hc => hex ⟨i, hi, hc⟩
    rw [calculatePhaseMargin_none tf hno,
      ieee_calculatePhaseMargin_none sv tf (fun i hi hc => hno i hi ((hnear i).mp hc))]

/-- The gain `H(s) = -1` written as numerator `[1]` over denominator `[-1]`: when the zero
imaginary part of the first sample is `-0`, `std::arg` returns `-pi`, the crossover is at
index 0 and the gain margin is `-(20 * log10 1) = 0`. -/
theorem ieee_calculateGainMargin_minus_one (sv : Ieee.SpecialValues)
    (hz : sv.negativeZero (Ieee.marginFrequency 0) = true) :
    Ieee.calculateGainMargin sv (TransferFunction.mk [1] [-1]) = Dbl.fin 0 := by
  have hH : ∀ w : ℝ, (TransferFunction.mk [1] [-1]).evaluate w = ((-1 : ℝ) : ℂ) := by
    intro w
    simp only [TransferFunction.evaluate, polynomialAt_singleton]
    push_cast
    norm_num
  have hN : ∀ w : ℝ, polynomialAt (TransferFunction.mk [1] [-1]).numerator (⟨0, w⟩ : ℂ) ≠ 0 := by
    intro w
    simp [polynomialAt_singleton]
  have hD : ∀ w : ℝ,
      polynomialAt (TransferFunction.mk [1] [-1]).denominator (⟨0, w⟩ : ℂ) ≠ 0 := by
    intro w
    simp [polynomialAt_singleton]
  have hneg : ∀ w : ℝ, ((TransferFunction.mk [1] [-1]).evaluate w).im = 0 ∧
      ((TransferFunction.mk [1] [-1]).evaluate w).re < 0 := by
    intro w
    rw [hH]
    simp
  have h0 : Ieee.marginPhase sv (TransferFunction.mk [1] [-1]) 0 = Dbl.fin (-180) := by
    simp only [Ieee.marginPhase, Ieee.specUnwrapped, Ieee.phaseDeg, hN, hD, hneg, hz,
      if_false, if_true, and_self]
  rw [ieee_calculateGainMargin_found sv _ 0 (by norm_num)
    (by rw [h0, nearMinus180_fin]; norm_num) (fun j hj => absurd hj (Nat.not_lt_zero j)),
    Ieee.marginMagnitude, ieee_magnitudeDb_regular sv _ _ (hN _) (hD _), hH]
  simp [Dbl.neg]

/-- The zero numerator `[0]` over `[1]`: every magnitude is minus infinity, no sample
passes the test against 0 dB, and the phase margin is plus infinity. -/
theorem ieee_calculatePhaseMargin_zero_numerator (sv : Ieee.SpecialValues) :
    Ieee.calculatePhaseMargin sv (TransferFunction.mk [0] [1]) = Dbl.posInf := by
  refine ieee_calculatePhaseMargin_none sv _ (fun i _ => ?_)
  have hm : Ieee.marginMagnitude sv (TransferFunction.mk [0] [1]) i = Dbl.negInf := by
    simp [Ieee.marginMagnitude, Ieee.magnitudeDb, polynomialAt_singleton]
  rw [hm]
  simp [Ieee.nearZeroDb, Dbl.abs, Dbl.lt]

end IeeeAgreement

section IeeeNegativeRealExamples

/-- The gain `H(s) = -1` as `[1]` over `[-1]` with a `-0` imaginary part at the first
sample: 0 dB and phase -180 at index 0, hence a phase margin of `180 + (-180) = 0`. -/
theorem ieee_calculatePhaseMargin_minus_one (sv : Ieee.SpecialValues)
    (hz : sv.negativeZero (Ieee.marginFrequency 0) = true) :
    Ieee.calculatePhaseMargin sv (TransferFunction.mk [1] [-1]) = Dbl.fin 0 := by
  have hH : ∀ w : ℝ, (TransferFunction.mk [1] [-1]).evaluate w = ((-1 : ℝ) : ℂ) := by
    intro w
    simp only [TransferFunction.evaluate, polynomialAt_singleton]
    push_cast
    norm_num
  have hN : ∀ w : ℝ, polynomialAt (TransferFunction.mk [1] [-1]).numerator (⟨0, w⟩ : ℂ) ≠ 0 := by
    intro w
    simp [polynomialAt_singleton]
  have hD : ∀ w : ℝ,
      polynomialAt (TransferFunction.mk [1] [-1]).denominator (⟨0, w⟩ : ℂ) ≠ 0 := by
    intro w
    simp [polynomialAt_singleton]
  have hneg : ∀ w : ℝ, ((TransferFunction.mk [1] [-1]).evaluate w).im = 0 ∧
      ((TransferFunction.mk [1] [-1]).evaluate w).re < 0 := by
    intro w
    rw [hH]
    simp
  have h0 : Ieee.marginPhase sv (TransferFunction.mk [1] [-1]) 0 = Dbl.fin (-180) := by
    simp only [Ieee.marginPhase, Ieee.specUnwrapped, Ieee.phaseDeg, hN, hD, hneg, hz,
      if_false, if_true, and_self]
  have hm : Ieee.marginMagnitude sv (TransferFunction.mk [1] [-1]) 0 = Dbl.fin 0 := by
    rw [Ieee.marginMagnitude, ieee_magnitudeDb_regular sv _ _ (hN _) (hD _), hH]
    simp
  rw [ieee_calculatePhaseMargin_found sv _ 0 (by norm_num)
    (by rw [hm, nearZeroDb_fin]; norm_num) (fun j hj => absurd hj (Nat.not_lt_zero j)), h0]
  simp [Dbl.add]

theorem marginFrequency_zero : Ieee.marginFrequency 0 = 1 / 100 := by
  unfold Ieee.marginFrequency
  rw [sweepFrequency_zero _ _ _ (by norm_num)]
  norm_num

/-- The double integrator `1/s^2` (numerator `[1]`, denominator `[1, 0, 0]`) with a `-0`
imaginary part at the first sample: phase -180 and magnitude 80 dB at `w = 0.01`, hence
a gain margin of -80 dB. -/
theorem ieee_calculateGainMargin_double_integrator (sv : Ieee.SpecialValues)
    (hz : sv.negativeZero (Ieee.marginFrequency 0) = true) :
    Ieee.calculateGainMargin sv (TransferFunction.mk [1] [1, 0, 0]) = Dbl.fin (-80) := by
  have h3 : List.range 3 = [0, 1, 2] := rfl
  have hDen : ∀ w : ℝ, polynomialAt [1, 0, 0] (⟨0, w⟩ : ℂ) = ((-(w ^ 2) : ℝ) : ℂ) := by
    intro w
    simp only [polynomialAt, List.length_cons, List.length_nil, h3, List.foldl_cons,
      List.foldl_nil]
    apply Complex.ext
    · simp [pow_succ]
    · simp [pow_succ]
  have hw0 := marginFrequency_zero
  have hH : (TransferFunction.mk [1] [1, 0, 0]).evaluate (Ieee.marginFrequency 0)
      = ((-10000 : ℝ) : ℂ) := by
    simp only [TransferFunction.evaluate, polynomialAt_singleton, hDen, hw0]
    push_cast
    norm_num
  have hN : polynomialAt (TransferFunction.mk [1] [1, 0, 0]).numerator
      (⟨0, Ieee.marginFrequency 0⟩ : ℂ) ≠ 0 := by
    simp [polynomialAt_singleton]
  have hD : polynomialAt (TransferFunction.mk [1] [1, 0, 0]).denominator
      (⟨0, Ieee.marginFrequency 0⟩ : ℂ) ≠ 0 := by
    simp only [hDen, hw0]
    intro h
    have h2 : (-((1 / 100 : ℝ) ^ 2)) = 0 := by exact_mod_cast h
    norm_num at h2
  have hneg : ((TransferFunction.mk [1] [1, 0, 0]).evaluate (Ieee.marginFrequency 0)).im = 0 ∧
      ((TransferFunction.mk [1] [1, 0, 0]).evaluate (Ieee.marginFrequency 0)).re < 0 := by
    rw [hH]
    simp
  have h0 : Ieee.marginPhase sv (TransferFunction.mk [1] [1, 0, 0]) 0 = Dbl.fin (-180) := by
    simp only [Ieee.marginPhase, Ieee.specUnwrapped, Ieee.phaseDeg, hN, hD, hneg, hz,
      if_false, if_true, and_self]
  have hlog : Real.logb 10 (10000 : ℝ) = 4 := by
    have h : (10000 : ℝ) = (10 : ℝ) ^ (4 : ℝ) := by norm_num
    rw [h, Real.logb_rpow (by norm_num) (by norm_num)]
  rw [ieee_calculateGainMargin_found sv _ 0 (by norm_num)
    (by rw [h0, nearMinus180_fin]; norm_num) (fun j hj => absurd hj (Nat.not_lt_zero j)),
    Ieee.marginMagnitude, ieee_magnitudeDb_regular sv _ _ hN hD, hH]
  simp only [Dbl.neg, Complex.abs_ofReal, abs_neg]
  rw [abs_of_pos (by norm_num : (0 : ℝ) < 10000), hlog]
  norm_num

end IeeeNegativeRealExamples

section IeeeWitnessLemmas

end IeeeWitnessLemmas

end BodeDiagrammViewer
